import Mathlib

/-!
# Verification of the orin-pipeline core against its specification

This file gives a shallow embedding, in Lean 4, of the parts of the
orin-pipeline Python code base that the specification's checked claims talk
about, together with theorems settling each claim.

Modelling conventions used throughout:

* Python strings are Lean `String`s or `List Char`; character predicates
  (`isalnum`, `isspace`, `lower`) are modelled by the corresponding ASCII-level
  Lean functions, which agree with Python on all inputs appearing here.
* Python floats that only ever hold sums of integer milliseconds (LRC
  timestamps) are modelled as natural numbers of milliseconds; this preserves
  order and equality of every value the code can produce.  Other float
  quantities (durations, scores, retry waits) are modelled as rationals, which
  is order-faithful for the small-denominator values involved.
* Blocking external calls (LLM providers, `process_track`, the track source)
  are modelled by explicit outcome oracles supplied as function arguments, and
  event emission by explicit event traces, so that control flow and the events
  a subscriber sees are captured exactly.
* In-place mutation of Python objects (segment records) is modelled by an
  explicit store of records addressed by list indices (references).
-/

namespace Orin

/-! ## Character-level helpers shared by several components

Python string primitives are modelled structurally on `List Char` so that
every definition is kernel-reducible on concrete inputs.  `str.strip` /
`str.lower` / `str.isalnum` are modelled at the ASCII level. -/

/-- Whitespace test used for `str.strip` / `str.split()`. -/
def wsChar (c : Char) : Bool := c.isWhitespace

/-- `str.strip()`: drop whitespace from both ends. -/
def trimChars (l : List Char) : List Char :=
  ((l.dropWhile wsChar).reverse.dropWhile wsChar).reverse

/-- `str.split(sep)` for a one-character separator (keeps empty pieces). -/
def splitOnCharAux (sep : Char) : List Char → List Char → List (List Char)
  | [], acc => [acc.reverse]
  | c :: cs, acc =>
    if c = sep then acc.reverse :: splitOnCharAux sep cs []
    else splitOnCharAux sep cs (c :: acc)

/-- `str.split(sep)` for a one-character separator. -/
def splitOnChar (sep : Char) (l : List Char) : List (List Char) :=
  splitOnCharAux sep l []

/-- `str.lower()` (ASCII). -/
def pyLower (l : List Char) : List Char := l.map Char.toLower

/-- `str.split()` with no argument: split on whitespace runs, no empties. -/
def pyWords (l : List Char) : List (List Char) :=
  (l.splitOnP wsChar).filter (· ≠ [])

/-- Python's substring test `sub in big`. -/
def subIn (sub : List Char) : List Char → Bool
  | [] => sub.isEmpty
  | c :: t => sub.isPrefixOf (c :: t) || subIn sub t

/-! ## LRC parser (`src/lrc_parser.py`)

Timestamps are modelled in integer milliseconds: the Python code computes
`minutes*60 + seconds + frac` as a float where `frac` is `cc/100` or
`ccc/1000`; multiplying through by 1000 gives the value modelled here, and the
map is strictly monotone and injective on the representable values, so every
comparison made by the code is preserved. -/

/-- A single line of lyrics with its timestamp (`LyricLine`). -/
structure LyricLine where
  line_number : Nat
  timestamp : Nat  -- milliseconds
  text : String
  deriving Repr, DecidableEq

/-- Parsed LRC data (`ParsedLRC`); `raw_text` is kept as in the source. -/
structure ParsedLRC where
  lines : List LyricLine
  raw_text : String
  deriving Repr, DecidableEq

/-- Numeric value of a decimal digit character. -/
def digitVal (c : Char) : Nat := c.toNat - '0'.toNat

/-- Match the regex `\[(\d{2}):(\d{2})(?:\.(\d{2,3}))?\]` at the head of the
character list.  Returns the timestamp (in milliseconds) of the match and the
remaining characters after the closing bracket.  The optional fractional group
is greedy with backtracking, exactly as the `re` engine behaves: three digits
are taken if a `]` follows them, else two digits if a `]` follows them, else
the whole group is dropped and a `]` must follow the seconds. -/
def matchTsAt : List Char → Option (Nat × List Char)
  | '[' :: m1 :: m2 :: ':' :: s1 :: s2 :: rest =>
    if m1.isDigit && m2.isDigit && s1.isDigit && s2.isDigit then
      let base := (digitVal m1 * 10 + digitVal m2) * 60000 +
                  (digitVal s1 * 10 + digitVal s2) * 1000
      match rest with
      | ']' :: r => some (base, r)
      | '.' :: a :: b :: rest2 =>
        if a.isDigit && b.isDigit then
          match rest2 with
          | c :: rest3 =>
            if c.isDigit then
              match rest3 with
              | ']' :: r =>
                some (base + (digitVal a * 100 + digitVal b * 10 + digitVal c), r)
              | _ => none
            else if c = ']' then
              some (base + (digitVal a * 10 + digitVal b) * 10, rest3)
            else none
          | [] => none
        else none
      | _ => none
    else none
  | _ => none

theorem matchTsAt_length {cs : List Char} {ts : Nat} {r : List Char}
    (h : matchTsAt cs = some (ts, r)) : r.length < cs.length := by
  unfold matchTsAt at h
  repeat' split at h
  all_goals simp_all
  all_goals omega

/-- Fuel-driven scanner core; `fuel` bounds the number of character positions
still to be examined and always suffices when it is at least the list length
(each successful match consumes at least seven characters, each failure one).
Structural recursion on the fuel keeps the definition kernel-reducible. -/
def scanTsAux : Nat → List Char → List (Nat × List Char)
  | 0, _ => []
  | _, [] => []
  | fuel + 1, c :: cs =>
    match matchTsAt (c :: cs) with
    | some (ts, rest) => (ts, rest) :: scanTsAux fuel rest
    | none => scanTsAux fuel cs

/-- All timestamp matches found on a line, scanning left to right as
`finditer` does, each paired with the characters remaining after it. -/
def scanTs (cs : List Char) : List (Nat × List Char) := scanTsAux cs.length cs

/-- Last element of a nonempty list, given as head and tail. -/
def lastOf (x : Nat × List Char) : List (Nat × List Char) → Nat × List Char
  | [] => x
  | y :: ys => lastOf y ys

/-- Does the text begin with `[` (metadata line test `text.startswith("[")`). -/
def beginsLB : List Char → Bool
  | '[' :: _ => true
  | _ => false

/-- Process one raw line of LRC input: strip it, find all timestamps, take the
text after the last match, and drop the line if it has no timestamp, empty
text, or metadata text beginning with `[`.  Returns the (first) timestamp and
the text for kept lines. -/
def parseLine (raw : List Char) : Option (Nat × List Char) :=
  let t := trimChars raw
  if t = [] then none
  else
    match scanTs t with
    | [] => none
    | m :: ms =>
      let lastM := lastOf m ms
      let text := trimChars lastM.2
      if text = [] || beginsLB text then none
      else some (m.1, text)

/-- Assign consecutive line numbers starting at `k`, keeping other fields. -/
def renumberFrom (k : Nat) : List LyricLine → List LyricLine
  | [] => []
  | x :: xs => { x with line_number := k } :: renumberFrom (k + 1) xs

/-- Build provisional `LyricLine`s from kept `(timestamp, text)` pairs with the
incrementing counter of the source (`line_number += 1`). -/
def mkLines (k : Nat) : List (Nat × List Char) → List LyricLine
  | [] => []
  | (ts, tx) :: rest => ⟨k, ts, ⟨tx⟩⟩ :: mkLines (k + 1) rest

/-- Sorting relation used by `lines.sort(key=lambda x: x.timestamp)`. -/
def tsLe (a b : LyricLine) : Prop := a.timestamp ≤ b.timestamp

instance : DecidableRel tsLe := fun a b => Nat.decLe _ _

instance : IsTotal LyricLine tsLe := ⟨fun a b => Nat.le_total a.timestamp b.timestamp⟩

instance : IsTrans LyricLine tsLe := ⟨fun _ _ _ h1 h2 => Nat.le_trans h1 h2⟩

/-- `parse_lrc`: split on newlines, keep timestamped non-metadata lines,
sort by timestamp (stably, as Python's `sort`) and renumber from 1. -/
def parse_lrc (synced_lyrics : String) : ParsedLRC :=
  let kept := (splitOnChar '\n' synced_lyrics.data).filterMap parseLine
  let provisional := mkLines 1 kept
  let sorted := provisional.insertionSort tsLe
  ⟨renumberFrom 1 sorted, synced_lyrics⟩

/-- `ParsedLRC.total_lines`. -/
def ParsedLRC.total_lines (p : ParsedLRC) : Nat := p.lines.length

/-- `ParsedLRC.get_timestamp` (1-indexed; any integer may be queried). -/
def ParsedLRC.get_timestamp (p : ParsedLRC) (line_number : Int) : Option Nat :=
  (p.lines.find? (fun l => (l.line_number : Int) = line_number)).map (·.timestamp)

/-- `ParsedLRC.get_line`. -/
def ParsedLRC.get_line (p : ParsedLRC) (line_number : Int) : Option LyricLine :=
  p.lines.find? (fun l => (l.line_number : Int) = line_number)

/-- `ParsedLRC.get_segment_timestamps`: start of `start_line`, and start of
the line after `end_line` if present, else `timestamp(end_line) + 3` seconds
(3000 ms), else undefined. -/
def ParsedLRC.get_segment_timestamps (p : ParsedLRC) (start_line end_line : Int) :
    Option Nat × Option Nat :=
  let start_ts := p.get_timestamp start_line
  let end_ts :=
    match p.get_line (end_line + 1) with
    | some next_line => some next_line.timestamp
    | none =>
      match p.get_timestamp end_line with
      | some last_line_ts => some (last_line_ts + 3000)
      | none => none
  (start_ts, end_ts)

/-! ### Structural lemmas about `parse_lrc` -/

theorem renumberFrom_map_line_number (k : Nat) (l : List LyricLine) :
    (renumberFrom k l).map (·.line_number) = List.range' k l.length := by
  induction l generalizing k with
  | nil => rfl
  | cons x xs ih => simp [renumberFrom, List.range'_succ, ih]

theorem renumberFrom_length (k : Nat) (l : List LyricLine) :
    (renumberFrom k l).length = l.length := by
  induction l generalizing k with
  | nil => rfl
  | cons x xs ih => simp [renumberFrom, ih]

theorem mem_renumberFrom {y : LyricLine} {k : Nat} {l : List LyricLine}
    (h : y ∈ renumberFrom k l) :
    ∃ x ∈ l, y.timestamp = x.timestamp ∧ y.text = x.text := by
  induction l generalizing k with
  | nil => simp [renumberFrom] at h
  | cons x xs ih =>
    simp only [renumberFrom, List.mem_cons] at h
    rcases h with h | h
    · exact ⟨x, List.mem_cons_self x xs, by simp [h]⟩
    · obtain ⟨x', hx', h1, h2⟩ := ih h
      exact ⟨x', List.mem_cons_of_mem _ hx', h1, h2⟩

theorem pairwise_renumberFrom {l : List LyricLine} (k : Nat)
    (h : l.Pairwise tsLe) : (renumberFrom k l).Pairwise tsLe := by
  induction l generalizing k with
  | nil => exact List.Pairwise.nil
  | cons x xs ih =>
    rcases h with _ | ⟨hx, hxs⟩
    refine List.Pairwise.cons ?_ (ih (k + 1) hxs)
    intro y hy
    obtain ⟨x', hx', h1, _⟩ := mem_renumberFrom hy
    have : tsLe x x' := hx x' hx'
    simp only [tsLe] at this ⊢
    omega

theorem parseLine_text {raw : List Char} {ts : Nat} {tx : List Char}
    (h : parseLine raw = some (ts, tx)) :
    tx ≠ [] ∧ beginsLB tx = false := by
  simp only [parseLine] at h
  split at h
  · exact absurd h (by simp)
  · split at h
    · exact absurd h (by simp)
    · split at h
      · exact absurd h (by simp)
      · rename_i hcond
        simp only [Option.some.injEq, Prod.mk.injEq] at h
        obtain ⟨-, h2⟩ := h
        subst h2
        simp only [Bool.or_eq_true, decide_eq_true_eq, not_or,
          Bool.not_eq_true] at hcond
        exact ⟨hcond.1, hcond.2⟩

theorem mem_mkLines {y : LyricLine} {k : Nat} {l : List (Nat × List Char)}
    (h : y ∈ mkLines k l) : ∃ pr ∈ l, y.timestamp = pr.1 ∧ y.text = ⟨pr.2⟩ := by
  induction l generalizing k with
  | nil => simp [mkLines] at h
  | cons x xs ih =>
    simp only [mkLines, List.mem_cons] at h
    rcases h with h | h
    · exact ⟨x, List.mem_cons_self x xs, by simp [h]⟩
    · obtain ⟨pr, hpr, h1, h2⟩ := ih h
      exact ⟨pr, List.mem_cons_of_mem _ hpr, h1, h2⟩

/-- C5.  For every input string, `parse_lrc` yields lines numbered exactly
`1..total_lines` contiguously, with adjacent timestamps non-decreasing, and
every kept line has non-empty text not beginning with `[` (lines without a
timestamp never reach the output, since a timestamp match is required to
produce a kept pair). -/
theorem parse_lrc_invariants (s : String) :
    ((parse_lrc s).lines.map (·.line_number) =
        List.range' 1 (parse_lrc s).total_lines)
    ∧ List.Chain' (fun a b => a.timestamp ≤ b.timestamp) (parse_lrc s).lines
    ∧ ∀ l ∈ (parse_lrc s).lines,
        l.text ≠ "" ∧ l.text.data.head? ≠ some '[' := by
  refine ⟨?_, ?_, ?_⟩
  · show (renumberFrom 1 _).map (·.line_number) = List.range' 1 (renumberFrom 1 _).length
    rw [renumberFrom_length]
    exact renumberFrom_map_line_number 1 _
  · have hs : (List.insertionSort tsLe
        (mkLines 1 ((splitOnChar '\n' s.data).filterMap parseLine))).Pairwise tsLe :=
      List.sorted_insertionSort tsLe _
    have := pairwise_renumberFrom 1 hs
    exact List.Pairwise.chain' this
  · intro l hl
    simp only [parse_lrc] at hl
    obtain ⟨x, hx, h1, h2⟩ := mem_renumberFrom hl
    have hx' : x ∈ mkLines 1 ((splitOnChar '\n' s.data).filterMap parseLine) :=
      (List.perm_insertionSort tsLe _).mem_iff.mp hx
    obtain ⟨pr, hpr, hp1, hp2⟩ := mem_mkLines hx'
    obtain ⟨raw, _, hraw⟩ := List.mem_filterMap.mp hpr
    obtain ⟨htx, hlb⟩ := parseLine_text
      (show parseLine raw = some (pr.1, pr.2) from by simpa using hraw)
    rw [h2, hp2]
    constructor
    · intro hc
      apply htx
      have : (⟨pr.2⟩ : String).data = ("" : String).data := by rw [hc]
      simpa using this
    · show (String.mk pr.2).data.head? ≠ some '['
      intro hc
      simp only [String.data] at hc
      cases pr2 : pr.2 with
      | nil => rw [pr2] at hc; simp at hc
      | cons c cs =>
        rw [pr2] at hc
        simp only [List.head?_cons, Option.some.injEq] at hc
        rw [pr2, hc] at hlb
        simp [beginsLB] at hlb

/-! ### Line lookup on well-numbered lines (for C6) -/

theorem numbered_find_eq (L : List LyricLine) (k0 : Nat)
    (h : L.map (·.line_number) = List.range' k0 L.length)
    (j : Nat) (hj : j < L.length) :
    L.find? (fun l => (l.line_number : Int) = ((k0 + j : Nat) : Int)) =
      some (L.getD j ⟨0, 0, ""⟩) := by
  induction L generalizing k0 j with
  | nil => simp at hj
  | cons x xs ih =>
    simp only [List.map_cons, List.length_cons, List.range'_succ,
      List.cons.injEq] at h
    obtain ⟨hx, hxs⟩ := h
    cases j with
    | zero =>
      simp [List.find?_cons, hx]
    | succ j' =>
      have hne : ¬ ((x.line_number : Int) = ((k0 + (j' + 1) : Nat) : Int)) := by
        rw [hx]; push_cast; omega
      have hj' : j' < xs.length := by simpa using hj
      have := ih (k0 + 1) hxs j' hj'
      have harith : ((k0 + 1) + j' : Nat) = (k0 + (j' + 1) : Nat) := by omega
      rw [harith] at this
      simp only [List.find?_cons, decide_eq_false hne]
      simpa using this

theorem numbered_find_none (L : List LyricLine) (k0 : Nat)
    (h : L.map (·.line_number) = List.range' k0 L.length)
    (k : Int) (hk : k < k0 ∨ ((k0 + L.length : Nat) : Int) ≤ k) :
    L.find? (fun l => (l.line_number : Int) = k) = none := by
  rw [List.find?_eq_none]
  intro x hx
  have hmem : x.line_number ∈ List.range' k0 L.length := by
    rw [← h]; exact List.mem_map_of_mem _ hx
  rw [List.mem_range'] at hmem
  obtain ⟨i, hi, hval⟩ := hmem
  simp only [decide_eq_true_eq]
  intro hcontra
  rw [hval] at hcontra
  rcases hk with hk | hk
  · omega
  · push_cast at hk hcontra; omega

/-- C6 (amended).  For a parsed LRC and in-range bounds `1 ≤ a, b ≤ n`:
`t_start` is the timestamp of line `a`; `t_end` is the timestamp of line
`b + 1` when `b < n`, else (`b = n`, last line) `timestamp(b) + 3` seconds.
The original claim's blanket "out-of-range bound ⇒ None" clause is dropped:
see the counterexample at `end_line = 0`. -/
theorem get_segment_timestamps_spec (s : String) (a b : Nat)
    (ha1 : 1 ≤ a) (ha2 : a ≤ (parse_lrc s).total_lines)
    (hb1 : 1 ≤ b) (hb2 : b ≤ (parse_lrc s).total_lines) :
    (((parse_lrc s).get_segment_timestamps a b).1 =
        some (((parse_lrc s).lines.getD (a - 1) ⟨0, 0, ""⟩).timestamp))
    ∧ (b < (parse_lrc s).total_lines →
        ((parse_lrc s).get_segment_timestamps a b).2 =
          some (((parse_lrc s).lines.getD b ⟨0, 0, ""⟩).timestamp))
    ∧ (b = (parse_lrc s).total_lines →
        ((parse_lrc s).get_segment_timestamps a b).2 =
          some (((parse_lrc s).lines.getD (b - 1) ⟨0, 0, ""⟩).timestamp + 3000)) := by
  have hnum := (parse_lrc_invariants s).1
  have hlen : (parse_lrc s).total_lines = (parse_lrc s).lines.length := rfl
  rw [hlen] at hnum ha2 hb2
  refine ⟨?_, ?_, ?_⟩
  · have := numbered_find_eq (parse_lrc s).lines 1 hnum (a - 1) (by omega)
    have harith : ((1 + (a - 1) : Nat) : Int) = (a : Int) := by push_cast; omega
    rw [harith] at this
    simp only [ParsedLRC.get_segment_timestamps, ParsedLRC.get_timestamp, this,
      Option.map_some']
  · intro hblt
    rw [hlen] at hblt
    have := numbered_find_eq (parse_lrc s).lines 1 hnum b hblt
    have harith : ((1 + b : Nat) : Int) = (b : Int) + 1 := by push_cast; omega
    rw [harith] at this
    simp only [ParsedLRC.get_segment_timestamps, ParsedLRC.get_line, this]
  · intro hbeq
    rw [hlen] at hbeq
    have hnone := numbered_find_none (parse_lrc s).lines 1 hnum ((b : Int) + 1)
      (by right; push_cast; omega)
    have := numbered_find_eq (parse_lrc s).lines 1 hnum (b - 1) (by omega)
    have harith : ((1 + (b - 1) : Nat) : Int) = (b : Int) := by push_cast; omega
    rw [harith] at this
    simp only [ParsedLRC.get_segment_timestamps, ParsedLRC.get_line, hnone,
      ParsedLRC.get_timestamp, this, Option.map_some']

/-- Witness for C6 on a concrete LRC text: bounds `a = 1`, `b = 2` of a
2-line parse, exercising both the in-range start and the last-line `+3 s`
branch. -/
theorem get_segment_timestamps_spec_witness :
    ((parse_lrc "[00:01.00]a\n[00:02.00]b").get_segment_timestamps
        ((1 : Nat) : Int) ((2 : Nat) : Int)).2 = some 5000 := by
  have h := get_segment_timestamps_spec "[00:01.00]a\n[00:02.00]b" 1 2
    (by decide) (by decide) (by decide) (by decide)
  have := h.2.2 (by decide)
  rw [this]
  decide

/-- Counterexample to C6 as stated: with `end_line = 0` (out of range, the
lines are numbered from 1) on a 2-line LRC, the returned `t_end` is the
timestamp of line `0 + 1 = 1`, not `None`, contradicting "when a bound is out
of range the corresponding component is undefined (None)". -/
theorem get_segment_timestamps_out_of_range_defined :
    ((parse_lrc "[00:01.00]a\n[00:02.00]b").get_segment_timestamps 0 0 =
      (none, some 1000))
    ∧ (∀ l ∈ (parse_lrc "[00:01.00]a\n[00:02.00]b").lines,
        (0 : Int) < l.line_number)
    ∧ ((parse_lrc "[00:01.00]a\n[00:02.00]b").get_segment_timestamps 0 0).2 ≠
        none := by
  refine ⟨by decide, by decide, by decide⟩

/-! ## Genre normalization (`src/segmenter.py`, `_normalize_genre`)

The Python `VALID_GENRES` is a `set`; its iteration order in the partial-match
loop is modelled as the order of the set literal in the source.  The claims
proved below (closure and idempotence) are independent of that order. -/

/-- The closed genre vocabulary, in source-literal order. -/
def VALID_GENRES : List String :=
  ["afrobeats", "reggaeton", "dancehall", "hip-hop", "r&b", "pop", "rock",
   "country", "latin", "electronic", "folk", "jazz", "classical", "metal",
   "indie", "soul", "funk", "gospel", "blues", "reggae", "punk", "disco",
   "house", "techno", "trap", "drill", "afropop", "amapiano", "kizomba",
   "soca", "calypso", "bachata", "salsa", "cumbia", "merengue", "other"]

/-- The alias table (`aliases` dict) in source order. -/
def GENRE_ALIASES : List (String × String) :=
  [("hiphop", "hip-hop"), ("hip hop", "hip-hop"), ("rnb", "r&b"),
   ("rhythm and blues", "r&b"), ("afro", "afrobeats"),
   ("afro-beats", "afrobeats"), ("dancehall/reggae", "dancehall"),
   ("edm", "electronic"), ("dance", "electronic"), ("alternative", "indie"),
   ("alt rock", "indie"), ("alt-rock", "indie"), ("alternative rock", "indie"),
   ("urban", "hip-hop"), ("tropical", "latin"), ("world", "other")]

/-- The `genre_lower = genre.lower().strip()` local of `_normalize_genre`. -/
def genreLower (g : String) : String := ⟨trimChars (pyLower g.data)⟩

/-- `_normalize_genre`: falsy input → `other`; else lower+strip, direct match,
alias table, substring containment either way, else `other`. -/
def normalize_genre (genre : Option String) : String :=
  match genre with
  | none => "other"
  | some g =>
    if g = "" then "other"
    else
      if VALID_GENRES.contains (genreLower g) then genreLower g
      else
        match GENRE_ALIASES.lookup (genreLower g) with
        | some v => v
        | none =>
          match VALID_GENRES.find? (fun vg =>
              subIn vg.data (genreLower g).data ||
              subIn (genreLower g).data vg.data) with
          | some vg => vg
          | none => "other"

theorem lookup_mem_snd {α β : Type} [BEq α] :
    ∀ (l : List (α × β)) (k : α) (v : β),
      l.lookup k = some v → v ∈ l.map Prod.snd := by
  intro l
  induction l with
  | nil => intro k v h; simp [List.lookup] at h
  | cons p rest ih =>
    intro k v h
    rw [List.lookup_cons] at h
    split at h
    · simp only [Option.some.injEq] at h
      simp [← h]
    · exact List.mem_cons_of_mem _ (ih k v h)

theorem normalize_genre_mem (g : Option String) :
    normalize_genre g ∈ VALID_GENRES := by
  match g with
  | none => decide
  | some s =>
    rw [normalize_genre]
    split
    · decide
    · split
      · rename_i hmem
        exact List.elem_iff.mp hmem
      · split
        · rename_i v hv
          have hsnd := lookup_mem_snd _ _ _ hv
          have : ∀ x ∈ GENRE_ALIASES.map Prod.snd, x ∈ VALID_GENRES := by decide
          exact this v hsnd
        · split
          · rename_i vg hvg
            exact List.mem_of_find?_eq_some hvg
          · decide

/-- C7.  Genre normalization is closed over `VALID_GENRES` and idempotent, for
every input including `None` and the empty string, and the alias table maps
`hiphop → hip-hop`, `edm → electronic`, `alternative → indie`,
`afro → afrobeats`. -/
theorem normalize_genre_idempotent_closed :
    (∀ g : Option String,
        normalize_genre g ∈ VALID_GENRES ∧
        normalize_genre (some (normalize_genre g)) = normalize_genre g)
    ∧ normalize_genre (some "hiphop") = "hip-hop"
    ∧ normalize_genre (some "edm") = "electronic"
    ∧ normalize_genre (some "alternative") = "indie"
    ∧ normalize_genre (some "afro") = "afrobeats" := by
  refine ⟨fun g => ⟨normalize_genre_mem g, ?_⟩, by decide, by decide, by decide, by decide⟩
  have hmem := normalize_genre_mem g
  set r := normalize_genre g with hr
  have hne : r ≠ "" := by
    have : ∀ x ∈ VALID_GENRES, x ≠ "" := by decide
    exact this r hmem
  have hfix : genreLower r = r := by
    have : ∀ x ∈ VALID_GENRES, genreLower x = x := by decide
    exact this r hmem
  rw [normalize_genre]
  rw [if_neg hne]
  rw [hfix]
  rw [if_pos (List.elem_iff.mpr hmem)]

/-! ## Segment validation (`src/segmenter.py`, `validate_segments`)

Python `Segment` objects are mutable and `validate_segments` mutates
`seg.energy` in place while returning the very same objects.  Aliasing is
modelled with an explicit store (`List Segment`) addressed by indices
(references): the function takes the store plus the list of references that
makes up its `segments` argument, and returns the references it keeps, the
error strings, and the post-call store every alias reads from. -/

/-- A lyrics segment produced by the LLM (`Segment` dataclass).  Line numbers
are integers as in Python (`int(seg["start_line"])`). -/
structure Segment where
  start_line : Int
  end_line : Int
  lyrics : String
  ai_description : String
  primary_emotion : String
  secondary_emotion : Option String
  energy : String
  tone : String
  deriving Repr, DecidableEq

/-- Default used only for out-of-range store reads, which cannot occur for
references obtained from a real Python list; its energy is valid so that such
phantom reads are never reported as coerced. -/
instance : Inhabited Segment := ⟨⟨0, 0, "", "", "", none, "medium", ""⟩⟩

/-- The closed energy vocabulary `("low", "medium", "high", "very-high")`. -/
def validEnergies : List String := ["low", "medium", "high", "very-high"]

/-- The sequence of rejection checks of `validate_segments`, in source order;
`some err` means the segment is skipped with that diagnostic (`continue`). -/
def segCheck (seg : Segment) (total_lines : Int) (i : Nat) : Option String :=
  if seg.start_line < 1 then
    some ("Segment " ++ toString i ++ ": start_line < 1")
  else if seg.end_line < seg.start_line then
    some ("Segment " ++ toString i ++ ": end_line < start_line")
  else if seg.end_line > total_lines then
    some ("Segment " ++ toString i ++ ": end_line > total_lines")
  else if seg.ai_description = "" then
    some ("Segment " ++ toString i ++ ": missing ai_description")
  else if seg.primary_emotion = "" then
    some ("Segment " ++ toString i ++ ": missing primary_emotion")
  else none

/-- The `for i, seg in enumerate(segments)` loop of `validate_segments`:
each failed check appends a diagnostic and skips the segment; a surviving
segment first has an out-of-vocabulary energy overwritten to `"medium"` in
place (on the store), then its reference is kept. -/
def validateSegLoop (store : List Segment) (total_lines : Int) (i : Nat) :
    List Nat → List Nat × List String × List Segment
  | [] => ([], [], store)
  | r :: rest =>
    let seg := store.getD r default
    match segCheck seg total_lines i with
    | some err =>
      let res := validateSegLoop store total_lines (i + 1) rest
      (res.1, err :: res.2.1, res.2.2)
    | none =>
      let store' :=
        if validEnergies.contains seg.energy then store
        else store.set r { seg with energy := "medium" }
      let res := validateSegLoop store' total_lines (i + 1) rest
      (r :: res.1, res.2.1, res.2.2)

/-- `validate_segments(segments, total_lines)` over the reference store. -/
def validate_segments (store : List Segment) (refs : List Nat)
    (total_lines : Int) : List Nat × List String × List Segment :=
  validateSegLoop store total_lines 0 refs

theorem getD_set_ne (l : List Segment) (r j : Nat) (x d : Segment)
    (h : r ≠ j) : (l.set r x).getD j d = l.getD j d := by
  induction l generalizing r j with
  | nil => simp
  | cons a t ih =>
    cases r with
    | zero => cases j with
      | zero => exact absurd rfl h
      | succ j' => simp [List.set, List.getD]
    | succ r' => cases j with
      | zero => simp [List.set, List.getD]
      | succ j' =>
        have := ih r' j' (fun hc => h (by rw [hc]))
        simpa [List.set, List.getD] using this

theorem getD_set_self (l : List Segment) (r : Nat) (x d : Segment)
    (h : r < l.length) : (l.set r x).getD r d = x := by
  induction l generalizing r with
  | nil => simp at h
  | cons a t ih =>
    cases r with
    | zero => simp [List.set, List.getD]
    | succ r' =>
      have := ih r' (by simpa using h)
      simpa [List.set, List.getD] using this

/-- Steps of the loop never disturb a reference whose current energy is
already in the vocabulary. -/
theorem validateSegLoop_preserves_valid_energy
    (refs : List Nat) (store : List Segment) (total : Int) (i r : Nat)
    (h : (store.getD r default).energy ∈ validEnergies) :
    (validateSegLoop store total i refs).2.2.getD r default =
      store.getD r default := by
  induction refs generalizing store i with
  | nil => rfl
  | cons r' rest ih =>
    rw [validateSegLoop]
    cases hchk : segCheck (store.getD r' default) total i with
    | some err => exact ih store (i + 1) h
    | none =>
      simp only
      by_cases hen : validEnergies.contains (store.getD r' default).energy
      · rw [if_pos hen]
        exact ih store (i + 1) h
      · rw [if_neg hen]
        by_cases hrr : r' = r
        · subst hrr
          exact absurd h (by simpa [List.elem_iff] using hen)
        · rw [ih _ (i + 1) (by rwa [getD_set_ne _ _ _ _ _ hrr]),
            getD_set_ne _ _ _ _ _ hrr]

/-- References not kept are never written. -/
theorem validateSegLoop_untouched
    (refs : List Nat) (store : List Segment) (total : Int) (i j : Nat)
    (h : j ∉ (validateSegLoop store total i refs).1) :
    (validateSegLoop store total i refs).2.2.getD j default =
      store.getD j default := by
  induction refs generalizing store i with
  | nil => rfl
  | cons r' rest ih =>
    rw [validateSegLoop] at h ⊢
    cases hchk : segCheck (store.getD r' default) total i with
    | some err =>
      rw [hchk] at h
      exact ih store (i + 1) h
    | none =>
      rw [hchk] at h
      simp only [List.mem_cons, not_or] at h
      obtain ⟨hjr, hjrest⟩ := h
      simp only
      by_cases hen : validEnergies.contains (store.getD r' default).energy
      · rw [if_pos hen] at hjrest ⊢
        exact ih store (i + 1) hjrest
      · rw [if_neg hen] at hjrest ⊢
        rw [ih _ (i + 1) hjrest, getD_set_ne _ _ _ _ _ (fun hc => hjr hc.symm)]

theorem validateSegLoop_sublist
    (refs : List Nat) (store : List Segment) (total : Int) (i : Nat) :
    (validateSegLoop store total i refs).1.Sublist refs := by
  induction refs generalizing store i with
  | nil => exact List.Sublist.refl []
  | cons r' rest ih =>
    rw [validateSegLoop]
    cases hchk : segCheck (store.getD r' default) total i with
    | some err => exact List.Sublist.cons r' (ih store (i + 1))
    | none =>
      simp only
      by_cases hen : validEnergies.contains (store.getD r' default).energy
      · rw [if_pos hen]
        exact List.Sublist.cons₂ r' (ih store (i + 1))
      · rw [if_neg hen]
        exact List.Sublist.cons₂ r' (ih _ (i + 1))

/-- Out-of-vocabulary energy on a kept segment forces an in-range reference. -/
theorem invalid_energy_in_range (store : List Segment) (r : Nat)
    (h : (store.getD r default).energy ∉ validEnergies) : r < store.length := by
  by_contra hge
  rw [List.getD_eq_default _ _ (by omega)] at h
  exact h (by decide)

/-- C10.  `validate_segments` mutates its input: every kept reference is one
of the input references (the same objects, no copies); a kept segment whose
energy was outside the vocabulary has been overwritten in place to `"medium"`
(so its record genuinely changed), and any alias of it — such as a shared
batch segmentation cache holding the same reference — reads the coerced value
from the post-call store; references that are not kept are untouched. -/
theorem validate_segments_mutates_input
    (store : List Segment) (refs : List Nat) (total : Int) :
    ((validate_segments store refs total).1.Sublist refs)
    ∧ (∀ r ∈ (validate_segments store refs total).1,
        (store.getD r default).energy ∉ validEnergies →
          (validate_segments store refs total).2.2.getD r default =
            { store.getD r default with energy := "medium" }
          ∧ (validate_segments store refs total).2.2.getD r default ≠
            store.getD r default)
    ∧ (∀ j, j ∉ (validate_segments store refs total).1 →
        (validate_segments store refs total).2.2.getD j default =
          store.getD j default) := by
  refine ⟨validateSegLoop_sublist refs store total 0, ?_,
    fun j hj => validateSegLoop_untouched refs store total 0 j hj⟩
  suffices hmain : ∀ (refs : List Nat) (store : List Segment) (i : Nat),
      ∀ r ∈ (validateSegLoop store total i refs).1,
        (store.getD r default).energy ∉ validEnergies →
          (validateSegLoop store total i refs).2.2.getD r default =
            { store.getD r default with energy := "medium" }
          ∧ (validateSegLoop store total i refs).2.2.getD r default ≠
            store.getD r default by
    intro r hr hbad
    exact hmain refs store 0 r hr hbad
  intro refs
  induction refs with
  | nil => intro store i r hr; simp [validateSegLoop] at hr
  | cons r' rest ih =>
    intro store i r hr hbad
    rw [validateSegLoop] at hr ⊢
    cases hchk : segCheck (store.getD r' default) total i with
    | some err =>
      rw [hchk] at hr
      exact ih store (i + 1) r hr hbad
    | none =>
      rw [hchk] at hr
      simp only [List.mem_cons] at hr
      simp only
      by_cases hen : validEnergies.contains (store.getD r' default).energy
      · rw [if_pos hen] at hr ⊢
        rcases hr with hr | hr
        · subst hr
          exact absurd (by simpa [List.elem_iff] using hen) hbad
        · exact ih store (i + 1) r hr hbad
      · rw [if_neg hen] at hr ⊢
        by_cases hrr : r' = r
        · subst hrr
          have hrange := invalid_energy_in_range store r' hbad
          have hset := getD_set_self store r'
            { store.getD r' default with energy := "medium" } default hrange
          have hpres := validateSegLoop_preserves_valid_energy rest
            (store.set r' { store.getD r' default with energy := "medium" })
            total (i + 1) r'
            (by rw [hset]; exact (by decide : ("medium" : String) ∈ validEnergies))
          rw [hpres, hset]
          refine ⟨rfl, ?_⟩
          intro hc
          have : (store.getD r' default).energy = "medium" := by rw [← hc]
          exact hbad (by rw [this]; decide)
        · rcases hr with hr | hr
          · exact absurd hr.symm hrr
          · have hsame := getD_set_ne store r' r
              { store.getD r' default with energy := "medium" } default hrr
            have := ih _ (i + 1) r hr (by rwa [hsame])
            rwa [hsame] at this

/-- Witness for C10: one segment with energy `"extreme"` passes all other
checks, is kept, and the shared store afterwards shows energy `"medium"` on
the very record the caller's reference points at. -/
theorem validate_segments_mutates_input_witness :
    (validate_segments [⟨1, 2, "ly", "desc", "joy", none, "extreme", "warm"⟩]
        [0] 5).2.2.getD 0 default =
      ⟨1, 2, "ly", "desc", "joy", none, "medium", "warm"⟩ ∧
    (validate_segments [⟨1, 2, "ly", "desc", "joy", none, "extreme", "warm"⟩]
        [0] 5).2.2.getD 0 default ≠
      ⟨1, 2, "ly", "desc", "joy", none, "extreme", "warm"⟩ := by
  have h := (validate_segments_mutates_input
    [⟨1, 2, "ly", "desc", "joy", none, "extreme", "warm"⟩] [0] 5).2.1
    0 (by decide) (by decide)
  exact ⟨h.1, by simpa using h.2⟩

/-! ## Event manager (`api/services/event_manager.py`)

`asyncio.Queue` semantics: the constructor argument `maxsize` defaults to `0`,
and any `maxsize ≤ 0` means the queue size is infinite — `put_nowait` then
never raises `QueueFull`.  `EventManager.subscribe` calls `asyncio.Queue()`
with no argument. -/

/-- An `asyncio.Queue` holding events of type `α`. -/
structure PyQueue (α : Type) where
  maxsize : Nat
  items : List α
  deriving Repr, DecidableEq

/-- A queue is bounded when it has a finite positive capacity (the claim's
notion); with asyncio semantics `maxsize = 0` means unbounded. -/
def PyQueue.isBounded {α : Type} (q : PyQueue α) : Prop := 0 < q.maxsize

/-- `queue.put_nowait(e)`: `none` models a raised `QueueFull`. -/
def PyQueue.putNowait {α : Type} (q : PyQueue α) (e : α) : Option (PyQueue α) :=
  if q.maxsize = 0 ∨ q.items.length < q.maxsize then
    some { q with items := q.items ++ [e] }
  else none

/-- The event manager state: its `_subscribers` list. -/
structure EventManager (α : Type) where
  subscribers : List (PyQueue α)
  deriving Repr

/-- `EventManager.subscribe`: create `asyncio.Queue()` (default `maxsize = 0`,
unbounded) and append it; returns the new queue and the new state. -/
def EventManager.subscribe {α : Type} (m : EventManager α) :
    PyQueue α × EventManager α :=
  let queue : PyQueue α := ⟨0, []⟩
  (queue, { m with subscribers := m.subscribers ++ [queue] })

/-- `EventManager.unsubscribe`: remove the first occurrence if present. -/
def EventManager.unsubscribe {α : Type} [DecidableEq α] (m : EventManager α)
    (q : PyQueue α) : EventManager α :=
  { m with subscribers :=
      if q ∈ m.subscribers then m.subscribers.erase q else m.subscribers }

/-- `EventManager.emit`: non-blocking `put_nowait` into every subscribed
queue, dropping the event for a queue that is full (`except QueueFull: pass`).
The function is total — emitting never blocks. -/
def EventManager.emit {α : Type} (m : EventManager α) (e : α) : EventManager α :=
  { m with subscribers := m.subscribers.map (fun q =>
      match q.putNowait e with
      | some q' => q'
      | none => q) }

/-- Counterexample to C4 as stated: the queue returned by `subscribe` is NOT
bounded — it is `asyncio.Queue()` with `maxsize = 0`, i.e. infinite capacity,
so the drop-on-full branch of `emit` is unreachable for it. -/
theorem subscribe_queue_not_bounded :
    ((EventManager.subscribe (⟨[]⟩ : EventManager Nat)).1.maxsize = 0)
    ∧ ¬ (EventManager.subscribe (⟨[]⟩ : EventManager Nat)).1.isBounded
    ∧ (∀ e : Nat, ∀ items : List Nat,
        ({ maxsize := 0, items := items } : PyQueue Nat).putNowait e =
          some ⟨0, items ++ [e]⟩) := by
  refine ⟨rfl, by simp [EventManager.subscribe, PyQueue.isBounded], ?_⟩
  intro e items
  simp [PyQueue.putNowait]

/-- C4 (amended).  Queues created by `subscribe` are unbounded
(`maxsize = 0`); `emit` delivers by a non-blocking `put_nowait` guarded by a
drop-on-full handler, so it never blocks on a slow consumer — and since every
subscribed queue is unbounded, `put_nowait` always succeeds and every
currently subscribed queue actually receives the event (nothing is ever
dropped); a genuinely bounded full queue would have the event dropped. -/
theorem emit_delivers_to_all {α : Type} (m : EventManager α) (e : α)
    (hall : ∀ q ∈ m.subscribers, q.maxsize = 0) :
    ((m.emit e).subscribers.map PyQueue.items =
        m.subscribers.map (fun q => q.items ++ [e]))
    ∧ ((EventManager.subscribe m).1.maxsize = 0)
    ∧ (∀ (q : PyQueue α), q.maxsize = 0 → q.putNowait e = some ⟨0, q.items ++ [e]⟩)
    ∧ (∀ (q : PyQueue α), 0 < q.maxsize → q.maxsize ≤ q.items.length →
        q.putNowait e = none) := by
  refine ⟨?_, rfl, ?_, ?_⟩
  · rw [EventManager.emit]
    simp only [List.map_map]
    apply List.map_congr_left
    intro q hq
    have h0 := hall q hq
    simp [Function.comp, PyQueue.putNowait, h0]
  · intro q h0
    cases q with
    | mk ms its => simp_all [PyQueue.putNowait]
  · intro q hpos hfull
    simp only [PyQueue.putNowait]
    rw [if_neg]
    push_neg
    exact ⟨by omega, by omega⟩

/-- Witness for C4's amended theorem at a concrete manager state. -/
theorem emit_delivers_to_all_witness :
    ((EventManager.emit ⟨[⟨0, [7]⟩, ⟨0, []⟩]⟩ 9).subscribers.map
        PyQueue.items = [[7, 9], [9]]) := by
  have h := emit_delivers_to_all (⟨[⟨0, [7]⟩, ⟨0, []⟩]⟩ : EventManager Nat) 9
    (by decide)
  rw [h.1]
  decide

/-! ## Pipeline start total (`api/services/pipeline_runner.py` `start`,
`src/curated.py` `get_curated_track_count`)

The curated `tracks` table is modelled as a list of rows and the
`processed_tracks` ledger as a list of `(track_id, status)` pairs.  `start`
(for the canonical `source = "curated"`) computes
`total = get_curated_track_count(db_path, genre)` and then caps it with
`min(total, limit)` under Python truthiness (`if limit:`). -/

/-- A row of the curated `tracks` table (only the columns the count reads). -/
structure CuratedRow where
  id : Nat
  genre : String
  deriving Repr, DecidableEq

/-- `get_curated_track_count`: `SELECT COUNT(*) FROM tracks` with a
`WHERE genre = ?` filter added only for truthy `genre`.  It never consults the
ledger. -/
def get_curated_track_count (db : List CuratedRow) (genre : Option String) : Nat :=
  match genre with
  | some g => if g ≠ "" then (db.filter (·.genre = g)).length else db.length
  | none => db.length

/-- The `total` computed and returned by `PipelineRunner.start` for the
curated source: the raw count, capped by `min(total, limit)` when `limit` is
truthy (non-`None`, non-zero).  The ledger and the `reprocess` flag are taken
as arguments to exhibit faithfully that the computation ignores them. -/
def pipelineStartTotal (db : List CuratedRow) (_ledger : List (Nat × String))
    (genre : Option String) (limit : Option Int) (_reprocess : Bool) : Int :=
  let total : Int := get_curated_track_count db genre
  match limit with
  | some l => if l ≠ 0 then min total l else total
  | none => total

/-- Modelled from the spec: the total C3 claims, counting candidate tracks
but excluding, when `reprocess = false`, tracks recorded in the ledger with
status `success` or `failed`; capped by `limit` the same way. -/
def specStartTotalExcludingLedger (db : List CuratedRow)
    (ledger : List (Nat × String)) (genre : Option String)
    (limit : Option Int) (reprocess : Bool) : Int :=
  let candidates : List CuratedRow :=
    match genre with
    | some g => if g ≠ "" then db.filter (fun r => r.genre = g) else db
    | none => db
  let kept : List CuratedRow :=
    if reprocess then candidates
    else candidates.filter (fun row =>
      ! ledger.any (fun e =>
          decide (e.1 = row.id ∧ (e.2 = "success" ∨ e.2 = "failed"))))
  let total : Int := kept.length
  match limit with
  | some l => if l ≠ 0 then min total l else total
  | none => total

/-- Counterexample to C3 as stated: one curated track already ledgered as
`success`, `reprocess = false`, no limit — the claim requires `total = 0`, but
`start` returns `total = 1` because `get_curated_track_count` applies no
ledger exclusion. -/
theorem pipelineStartTotal_ignores_ledger_counterexample :
    pipelineStartTotal [⟨1, "pop"⟩] [(1, "success")] none none false = 1
    ∧ specStartTotalExcludingLedger [⟨1, "pop"⟩] [(1, "success")] none none false = 0
    ∧ pipelineStartTotal [⟨1, "pop"⟩] [(1, "success")] none none false ≠
        specStartTotalExcludingLedger [⟨1, "pop"⟩] [(1, "success")] none none false := by
  refine ⟨by decide, by decide, by decide⟩

/-- C3 (amended).  The `total` returned by `start` counts all candidate
tracks (genre filter only) with no ledger exclusion regardless of
`reprocess`; it is capped by `limit` exactly when a non-zero limit is given
(`if limit:` truthiness), and is entirely independent of the ledger contents
and of the `reprocess` flag. -/
theorem pipelineStartTotal_spec (db : List CuratedRow)
    (ledger ledger' : List (Nat × String)) (genre : Option String)
    (limit : Option Int) (rp rp' : Bool) :
    (pipelineStartTotal db ledger genre limit rp =
        pipelineStartTotal db ledger' genre limit rp')
    ∧ (limit = none →
        pipelineStartTotal db ledger genre limit rp =
          get_curated_track_count db genre)
    ∧ (∀ l : Int, limit = some l → l ≠ 0 →
        pipelineStartTotal db ledger genre limit rp =
          min (get_curated_track_count db genre : Int) l)
    ∧ (∀ l : Int, limit = some l → l = 0 →
        pipelineStartTotal db ledger genre limit rp =
          get_curated_track_count db genre) := by
  refine ⟨rfl, ?_, ?_, ?_⟩
  · intro h; subst h; rfl
  · intro l h hl
    subst h
    simp [pipelineStartTotal, hl]
  · intro l h hl
    subst h hl
    simp [pipelineStartTotal]

/-- Witness for C3's amended theorem: two tracks, a ledgered `success` row,
`reprocess = false`, limit 5 — the returned total is the raw genre count 2. -/
theorem pipelineStartTotal_spec_witness :
    pipelineStartTotal [⟨1, "pop"⟩, ⟨2, "pop"⟩] [(1, "success")] (some "pop")
        (some 5) false = 2 := by
  have h := (pipelineStartTotal_spec [⟨1, "pop"⟩, ⟨2, "pop"⟩] [(1, "success")]
    [] (some "pop") (some 5) false true).2.2.1 5 rfl (by decide)
  rw [h]
  decide

/-! ## Segmenter provider loops (`src/segmenter.py`,
`segment_lyrics` / `segment_lyrics_batch`)

The provider calls (`_call_groq` / `_call_together`) followed by response
parsing are modelled by an oracle `Nat → LLMOutcome` indexed by a running call
counter: each outcome tells how one call-and-parse ends (parsed content,
`json.JSONDecodeError`, `ValueError` from a missing API key, a
`GroqRateLimitError` with its headers, or any other exception).  The header
values are carried as already-parsed rationals (`float(...)` of the header
strings; an absent entry covers both a missing and an empty header).  Sleeps
(`asyncio.sleep`) and calls are recorded in an explicit event trace so that
"returns immediately, no sleep, no further attempts" is a statement about the
trace. -/

/-- Configuration constants from `src/config.py`. -/
def MAX_RETRIES : Nat := 3

/-- `RETRY_DELAY = 1.0` seconds. -/
def RETRY_DELAY : Rat := 1

/-- `LLM_PROVIDERS = ["groq"]`. -/
def LLM_PROVIDERS : List String := ["groq"]

/-- The rate-limit headers of a `GroqRateLimitError` response. -/
structure RateHeaders where
  retryAfterMs : Option Rat  -- `retry-after-ms`, milliseconds
  retryAfter : Option Rat    -- `retry-after`, seconds
  deriving Repr, DecidableEq

/-- The `wait_time` computation of the rate-limit handler:
`retry-after-ms / 1000` when present, else `retry-after` seconds, else 60 s. -/
def waitTime (h : RateHeaders) : Rat :=
  match h.retryAfterMs with
  | some ms => ms / 1000
  | none =>
    match h.retryAfter with
    | some ra => ra
    | none => 60

/-- Outcome of one provider call plus response parsing in `segment_lyrics`. -/
inductive LLMOutcome where
  | parsed (genre : String) (segments : List Segment)
  | jsonError (msg : String)
  | valueError (msg : String)
  | rateLimited (headers : RateHeaders)
  | otherError (msg : String)
  deriving Repr, DecidableEq

/-- Events observable from outside the segmenter loop. -/
inductive SegEvent where
  | call (provider : String) (attempt : Nat)
  | sleep (duration : Rat)
  deriving Repr, DecidableEq

/-- `SegmentationResult`. -/
structure SegmentationResult where
  success : Bool
  segments : List Segment
  genre : Option String
  provider : Option String
  error : Option String := none
  retry_after_seconds : Option Rat := none
  deriving Repr, DecidableEq

/-- The rate-limit result `segment_lyrics` returns immediately. -/
def rlResult (provider : String) (h : RateHeaders) : SegmentationResult :=
  ⟨false, [], none, some provider, some ("Rate limited by " ++ provider),
    some (waitTime h)⟩

/-- State returned by the attempt loop of one provider. -/
structure AttemptsOut where
  result : Option SegmentationResult
  events : List SegEvent
  calls : Nat
  lastErr : Option String
  deriving Repr

/-- The `for attempt in range(MAX_RETRIES)` loop of `segment_lyrics` for one
provider, with `fuel` attempts remaining (`attempt = MAX_RETRIES - fuel`).
An unknown provider `continue`s without calling or sleeping; a rate limit or
a successful parse with segments returns at once; a missing API key
(`ValueError`) breaks to the next provider without sleeping; JSON and other
errors sleep `RETRY_DELAY * (attempt + 1)` before every non-final attempt. -/
def segAttempts (provider : String) (oracle : Nat → LLMOutcome) :
    Nat → Nat → Option String → AttemptsOut
  | c, 0, lastErr => ⟨none, [], c, lastErr⟩
  | c, fuel + 1, lastErr =>
    if provider = "groq" ∨ provider = "together" then
      let attempt := MAX_RETRIES - (fuel + 1)
      let retry := fun (newErr : Option String) =>
        let next := segAttempts provider oracle (c + 1) fuel newErr
        ({ next with events :=
            SegEvent.call provider attempt ::
              ((if fuel ≠ 0 then [SegEvent.sleep (RETRY_DELAY * (attempt + 1))]
                else []) ++ next.events) } : AttemptsOut)
      match oracle c with
      | .parsed genre segs =>
        if segs ≠ [] then
          ⟨some ⟨true, segs, some genre, some provider, none, none⟩,
            [SegEvent.call provider attempt], c + 1, lastErr⟩
        else retry lastErr
      | .jsonError msg => retry (some ("JSON parse error: " ++ msg))
      | .valueError msg =>
        ⟨none, [SegEvent.call provider attempt], c + 1, some msg⟩
      | .rateLimited h =>
        ⟨some (rlResult provider h), [SegEvent.call provider attempt], c + 1,
          lastErr⟩
      | .otherError msg => retry (some (provider ++ " error: " ++ msg))
    else
      segAttempts provider oracle c fuel lastErr

/-- State returned by the whole `segment_lyrics` run. -/
structure SegRunOut where
  result : SegmentationResult
  events : List SegEvent
  calls : Nat
  deriving Repr

/-- The `for provider in providers_list` loop of `segment_lyrics`. -/
def segProvidersLoop (oracle : Nat → LLMOutcome) :
    List String → Nat → Option String → SegRunOut
  | [], c, lastErr =>
    ⟨⟨false, [], none, none, some (lastErr.getD "All providers failed"), none⟩,
      [], c⟩
  | p :: rest, c, lastErr =>
    let a := segAttempts p oracle c MAX_RETRIES lastErr
    match a.result with
    | some r => ⟨r, a.events, a.calls⟩
    | none =>
      let b := segProvidersLoop oracle rest a.calls a.lastErr
      ⟨b.result, a.events ++ b.events, b.calls⟩

/-- `segment_lyrics` (prompt construction does not influence control flow and
is absorbed into the oracle). -/
def segment_lyrics (providers : Option (List String))
    (oracle : Nat → LLMOutcome) : SegRunOut :=
  segProvidersLoop oracle (providers.getD LLM_PROVIDERS) 0 none

/-- `BatchedSongResult`. -/
structure BatchedSongResult where
  track_id : Int
  song_index : Nat
  title : String
  artist : String
  genre : Option String
  segments : List Segment
  error : Option String := none
  deriving Repr, DecidableEq

/-- `BatchSegmentationResult`. -/
structure BatchSegmentationResult where
  success : Bool
  song_results : List BatchedSongResult
  provider : Option String
  error : Option String := none
  retry_after_seconds : Option Rat := none
  deriving Repr, DecidableEq

/-- Outcome of one provider call plus parsing in `segment_lyrics_batch`;
`parsed` carries the per-song results of `_parse_batched_response`. -/
inductive BatchLLMOutcome where
  | parsed (results : List BatchedSongResult)
  | jsonError (msg : String)
  | valueError (msg : String)
  | rateLimited (headers : RateHeaders)
  | otherError (msg : String)
  deriving Repr, DecidableEq

/-- The rate-limit result `segment_lyrics_batch` returns immediately. -/
def rlBatchResult (provider : String) (h : RateHeaders) : BatchSegmentationResult :=
  ⟨false, [], some provider, some ("Rate limited by " ++ provider),
    some (waitTime h)⟩

/-- State returned by the batch attempt loop of one provider. -/
structure BatchAttemptsOut where
  result : Option BatchSegmentationResult
  events : List SegEvent
  calls : Nat
  lastErr : Option String
  deriving Repr

/-- The attempt loop of `segment_lyrics_batch` for one provider; identical in
shape to `segAttempts`, except that a parsed response succeeds only when at
least one song has segments. -/
def batchAttempts (provider : String) (oracle : Nat → BatchLLMOutcome) :
    Nat → Nat → Option String → BatchAttemptsOut
  | c, 0, lastErr => ⟨none, [], c, lastErr⟩
  | c, fuel + 1, lastErr =>
    if provider = "groq" ∨ provider = "together" then
      let attempt := MAX_RETRIES - (fuel + 1)
      let retry := fun (newErr : Option String) =>
        let next := batchAttempts provider oracle (c + 1) fuel newErr
        ({ next with events :=
            SegEvent.call provider attempt ::
              ((if fuel ≠ 0 then [SegEvent.sleep (RETRY_DELAY * (attempt + 1))]
                else []) ++ next.events) } : BatchAttemptsOut)
      match oracle c with
      | .parsed results =>
        if (results.filter (fun r => r.segments ≠ [])).length > 0 then
          ⟨some ⟨true, results, some provider, none, none⟩,
            [SegEvent.call provider attempt], c + 1, lastErr⟩
        else retry lastErr
      | .jsonError msg => retry (some ("JSON parse error: " ++ msg))
      | .valueError msg =>
        ⟨none, [SegEvent.call provider attempt], c + 1, some msg⟩
      | .rateLimited h =>
        ⟨some (rlBatchResult provider h), [SegEvent.call provider attempt],
          c + 1, lastErr⟩
      | .otherError msg => retry (some (provider ++ " error: " ++ msg))
    else
      batchAttempts provider oracle c fuel lastErr

/-- State returned by the whole `segment_lyrics_batch` run. -/
structure BatchRunOut where
  result : BatchSegmentationResult
  events : List SegEvent
  calls : Nat
  deriving Repr

/-- The provider loop of `segment_lyrics_batch`; when every provider fails,
every requested song gets a per-song "Batch API call failed" error. -/
def batchProvidersLoop (songs : List (String × String × String × Int))
    (oracle : Nat → BatchLLMOutcome) :
    List String → Nat → Option String → BatchRunOut
  | [], c, lastErr =>
    ⟨⟨false,
      songs.enum.map (fun pr =>
        ⟨pr.2.2.2.2, pr.1 + 1, pr.2.2.1, pr.2.2.2.1, none, [],
          some "Batch API call failed"⟩),
      none, some (lastErr.getD "All providers failed for batch"), none⟩,
      [], c⟩
  | p :: rest, c, lastErr =>
    let a := batchAttempts p oracle c MAX_RETRIES lastErr
    match a.result with
    | some r => ⟨r, a.events, a.calls⟩
    | none =>
      let b := batchProvidersLoop songs oracle rest a.calls a.lastErr
      ⟨b.result, a.events ++ b.events, b.calls⟩

/-- `segment_lyrics_batch`: empty input returns success with no results and
no provider calls; otherwise run the provider loop. -/
def segment_lyrics_batch (songs : List (String × String × String × Int))
    (providers : Option (List String)) (oracle : Nat → BatchLLMOutcome) :
    BatchRunOut :=
  if songs = [] then ⟨⟨true, [], none, none, none⟩, [], 0⟩
  else batchProvidersLoop songs oracle (providers.getD LLM_PROVIDERS) 0 none

/-! ### Rate-limit behaviour of the segmenter loops (C1) -/

theorem getLast?_cons_append {α : Type} (x : α) (l₁ l₂ : List α) (e : α)
    (h : l₂.getLast? = some e) : (x :: (l₁ ++ l₂)).getLast? = some e := by
  have h2 : l₂ ≠ [] := by intro hc; rw [hc] at h; simp at h
  rw [← List.singleton_append, ← List.append_assoc,
    List.getLast?_append_of_ne_nil _ h2, h]

/-- In the attempt loop, a consumed rate-limited call is necessarily the last
call consumed, the loop's result is exactly the rate-limit failure, and the
last recorded event is that provider call (no sleep, no further attempt). -/
theorem segAttempts_rl (provider : String) (oracle : Nat → LLMOutcome)
    (hd : RateHeaders) :
    ∀ (fuel c : Nat) (lastErr : Option String) (k : Nat),
      oracle k = .rateLimited hd → c ≤ k →
      k < (segAttempts provider oracle c fuel lastErr).calls →
      (k + 1 = (segAttempts provider oracle c fuel lastErr).calls
       ∧ (segAttempts provider oracle c fuel lastErr).result =
           some (rlResult provider hd)
       ∧ ∃ a, (segAttempts provider oracle c fuel lastErr).events.getLast? =
           some (SegEvent.call provider a)) := by
  intro fuel
  induction fuel with
  | zero =>
    intro c lastErr k hk hck hlt
    simp [segAttempts] at hlt
    omega
  | succ fuel ih =>
    intro c lastErr k hk hck hlt
    rw [segAttempts] at hlt ⊢
    by_cases hp : provider = "groq" ∨ provider = "together"
    · rw [if_pos hp] at hlt ⊢
      cases ho : oracle c with
      | parsed genre segs =>
        simp only [ho] at hlt ⊢
        by_cases hsegs : segs ≠ []
        · rw [if_pos hsegs] at hlt ⊢
          have hlt' : k < c + 1 := hlt
          have : k = c := by omega
          rw [this, ho] at hk
          exact absurd hk (by simp)
        · rw [if_neg hsegs] at hlt ⊢
          have hkc : k ≠ c := fun hc => by rw [hc, ho] at hk; simp at hk
          obtain ⟨h1, h2, a, h3⟩ := ih (c + 1) lastErr k hk (by omega) hlt
          exact ⟨h1, h2, a, getLast?_cons_append _ _ _ _ h3⟩
      | jsonError msg =>
        simp only [ho] at hlt ⊢
        have hkc : k ≠ c := fun hc => by rw [hc, ho] at hk; simp at hk
        obtain ⟨h1, h2, a, h3⟩ := ih (c + 1) _ k hk (by omega) hlt
        exact ⟨h1, h2, a, getLast?_cons_append _ _ _ _ h3⟩
      | valueError msg =>
        simp only [ho] at hlt ⊢
        have hlt' : k < c + 1 := hlt
        have : k = c := by omega
        rw [this, ho] at hk
        exact absurd hk (by simp)
      | rateLimited h' =>
        simp only [ho] at hlt ⊢
        have hlt' : k < c + 1 := hlt
        have hkc : k = c := by omega
        rw [hkc, ho] at hk
        have hhd : h' = hd := by
          have := hk
          simp only [LLMOutcome.rateLimited.injEq] at this
          exact this
        subst hhd
        subst hkc
        exact ⟨rfl, rfl, MAX_RETRIES - (fuel + 1), rfl⟩
      | otherError msg =>
        simp only [ho] at hlt ⊢
        have hkc : k ≠ c := fun hc => by rw [hc, ho] at hk; simp at hk
        obtain ⟨h1, h2, a, h3⟩ := ih (c + 1) _ k hk (by omega) hlt
        exact ⟨h1, h2, a, getLast?_cons_append _ _ _ _ h3⟩
    · rw [if_neg hp] at hlt ⊢
      exact ih c lastErr k hk hck hlt

/-- Lifting of `segAttempts_rl` over the provider loop. -/
theorem segProvidersLoop_rl (oracle : Nat → LLMOutcome) (hd : RateHeaders) :
    ∀ (ps : List String) (c : Nat) (lastErr : Option String) (k : Nat),
      oracle k = .rateLimited hd → c ≤ k →
      k < (segProvidersLoop oracle ps c lastErr).calls →
      ((segProvidersLoop oracle ps c lastErr).result.success = false
       ∧ (segProvidersLoop oracle ps c lastErr).result.retry_after_seconds =
           some (waitTime hd)
       ∧ k + 1 = (segProvidersLoop oracle ps c lastErr).calls
       ∧ ∃ p a, (segProvidersLoop oracle ps c lastErr).events.getLast? =
             some (SegEvent.call p a)
           ∧ (segProvidersLoop oracle ps c lastErr).result.error =
             some ("Rate limited by " ++ p)) := by
  intro ps
  induction ps with
  | nil =>
    intro c lastErr k hk hck hlt
    simp [segProvidersLoop] at hlt
    omega
  | cons p rest ih =>
    intro c lastErr k hk hck hlt
    rw [segProvidersLoop] at hlt ⊢
    cases ha : (segAttempts p oracle c MAX_RETRIES lastErr).result with
    | some r =>
      simp only [ha] at hlt ⊢
      obtain ⟨h1, h2, a, h3⟩ := segAttempts_rl p oracle hd MAX_RETRIES c lastErr
        k hk hck hlt
      rw [ha] at h2
      have hr : r = rlResult p hd := by
        simpa using h2
      subst hr
      exact ⟨rfl, rfl, h1, p, a, h3, rfl⟩
    | none =>
      simp only [ha] at hlt ⊢
      by_cases hlt1 : k < (segAttempts p oracle c MAX_RETRIES lastErr).calls
      · obtain ⟨-, h2, -⟩ := segAttempts_rl p oracle hd MAX_RETRIES c lastErr
          k hk hck hlt1
        rw [ha] at h2
        exact absurd h2 (by simp)
      · obtain ⟨h1, h2, h3, p', a, h4, h5⟩ :=
          ih (segAttempts p oracle c MAX_RETRIES lastErr).calls
            (segAttempts p oracle c MAX_RETRIES lastErr).lastErr k hk
            (by omega) hlt
        refine ⟨h1, h2, h3, p', a, ?_, h5⟩
        have hne : (segProvidersLoop oracle rest
            (segAttempts p oracle c MAX_RETRIES lastErr).calls
            (segAttempts p oracle c MAX_RETRIES lastErr).lastErr).events ≠ [] := by
          intro hc
          rw [hc] at h4
          simp at h4
        rw [List.getLast?_append_of_ne_nil _ hne, h4]

/-- Analogue of `segAttempts_rl` for the batch loop. -/
theorem batchAttempts_rl (provider : String) (oracle : Nat → BatchLLMOutcome)
    (hd : RateHeaders) :
    ∀ (fuel c : Nat) (lastErr : Option String) (k : Nat),
      oracle k = .rateLimited hd → c ≤ k →
      k < (batchAttempts provider oracle c fuel lastErr).calls →
      (k + 1 = (batchAttempts provider oracle c fuel lastErr).calls
       ∧ (batchAttempts provider oracle c fuel lastErr).result =
           some (rlBatchResult provider hd)
       ∧ ∃ a, (batchAttempts provider oracle c fuel lastErr).events.getLast? =
           some (SegEvent.call provider a)) := by
  intro fuel
  induction fuel with
  | zero =>
    intro c lastErr k hk hck hlt
    simp [batchAttempts] at hlt
    omega
  | succ fuel ih =>
    intro c lastErr k hk hck hlt
    rw [batchAttempts] at hlt ⊢
    by_cases hp : provider = "groq" ∨ provider = "together"
    · rw [if_pos hp] at hlt ⊢
      cases ho : oracle c with
      | parsed results =>
        simp only [ho] at hlt ⊢
        by_cases hres : (results.filter (fun r => r.segments ≠ [])).length > 0
        · rw [if_pos hres] at hlt ⊢
          have hlt' : k < c + 1 := hlt
          have : k = c := by omega
          rw [this, ho] at hk
          exact absurd hk (by simp)
        · rw [if_neg hres] at hlt ⊢
          have hkc : k ≠ c := fun hc => by rw [hc, ho] at hk; simp at hk
          obtain ⟨h1, h2, a, h3⟩ := ih (c + 1) lastErr k hk (by omega) hlt
          exact ⟨h1, h2, a, getLast?_cons_append _ _ _ _ h3⟩
      | jsonError msg =>
        simp only [ho] at hlt ⊢
        have hkc : k ≠ c := fun hc => by rw [hc, ho] at hk; simp at hk
        obtain ⟨h1, h2, a, h3⟩ := ih (c + 1) _ k hk (by omega) hlt
        exact ⟨h1, h2, a, getLast?_cons_append _ _ _ _ h3⟩
      | valueError msg =>
        simp only [ho] at hlt ⊢
        have hlt' : k < c + 1 := hlt
        have : k = c := by omega
        rw [this, ho] at hk
        exact absurd hk (by simp)
      | rateLimited h' =>
        simp only [ho] at hlt ⊢
        have hlt' : k < c + 1 := hlt
        have hkc : k = c := by omega
        rw [hkc, ho] at hk
        have hhd : h' = hd := by
          simpa using hk
        subst hhd
        subst hkc
        exact ⟨rfl, rfl, MAX_RETRIES - (fuel + 1), rfl⟩
      | otherError msg =>
        simp only [ho] at hlt ⊢
        have hkc : k ≠ c := fun hc => by rw [hc, ho] at hk; simp at hk
        obtain ⟨h1, h2, a, h3⟩ := ih (c + 1) _ k hk (by omega) hlt
        exact ⟨h1, h2, a, getLast?_cons_append _ _ _ _ h3⟩
    · rw [if_neg hp] at hlt ⊢
      exact ih c lastErr k hk hck hlt

/-- Lifting of `batchAttempts_rl` over the batch provider loop. -/
theorem batchProvidersLoop_rl (songs : List (String × String × String × Int))
    (oracle : Nat → BatchLLMOutcome) (hd : RateHeaders) :
    ∀ (ps : List String) (c : Nat) (lastErr : Option String) (k : Nat),
      oracle k = .rateLimited hd → c ≤ k →
      k < (batchProvidersLoop songs oracle ps c lastErr).calls →
      ((batchProvidersLoop songs oracle ps c lastErr).result.success = false
       ∧ (batchProvidersLoop songs oracle ps c lastErr).result.retry_after_seconds =
           some (waitTime hd)
       ∧ (batchProvidersLoop songs oracle ps c lastErr).result.song_results = []
       ∧ k + 1 = (batchProvidersLoop songs oracle ps c lastErr).calls
       ∧ ∃ p a, (batchProvidersLoop songs oracle ps c lastErr).events.getLast? =
             some (SegEvent.call p a)
           ∧ (batchProvidersLoop songs oracle ps c lastErr).result.error =
             some ("Rate limited by " ++ p)) := by
  intro ps
  induction ps with
  | nil =>
    intro c lastErr k hk hck hlt
    simp [batchProvidersLoop] at hlt
    omega
  | cons p rest ih =>
    intro c lastErr k hk hck hlt
    rw [batchProvidersLoop] at hlt ⊢
    cases ha : (batchAttempts p oracle c MAX_RETRIES lastErr).result with
    | some r =>
      simp only [ha] at hlt ⊢
      obtain ⟨h1, h2, a, h3⟩ := batchAttempts_rl p oracle hd MAX_RETRIES c
        lastErr k hk hck hlt
      rw [ha] at h2
      have hr : r = rlBatchResult p hd := by simpa using h2
      subst hr
      exact ⟨rfl, rfl, rfl, h1, p, a, h3, rfl⟩
    | none =>
      simp only [ha] at hlt ⊢
      by_cases hlt1 : k < (batchAttempts p oracle c MAX_RETRIES lastErr).calls
      · obtain ⟨-, h2, -⟩ := batchAttempts_rl p oracle hd MAX_RETRIES c lastErr
          k hk hck hlt1
        rw [ha] at h2
        exact absurd h2 (by simp)
      · obtain ⟨h1, h2, h3, h4, p', a, h5, h6⟩ :=
          ih (batchAttempts p oracle c MAX_RETRIES lastErr).calls
            (batchAttempts p oracle c MAX_RETRIES lastErr).lastErr k hk
            (by omega) hlt
        refine ⟨h1, h2, h3, h4, p', a, ?_, h6⟩
        have hne : (batchProvidersLoop songs oracle rest
            (batchAttempts p oracle c MAX_RETRIES lastErr).calls
            (batchAttempts p oracle c MAX_RETRIES lastErr).lastErr).events ≠ [] := by
          intro hc
          rw [hc] at h5
          simp at h5
        rw [List.getLast?_append_of_ne_nil _ hne, h5]

/-- C1.  When a provider raises a rate-limit signal during `segment_lyrics` or
`segment_lyrics_batch`, the function returns immediately: the rate-limited
call is the last call made (no further provider attempts), the last event of
the run is that call (no sleep or backoff follows it), and the returned
failure carries `retry_after_seconds` computed from the `retry-after-ms`
header divided by 1000 when present, else the `retry-after` header in
seconds, else 60.0 s. -/
theorem segmenter_rate_limit_contract :
    (∀ (ms : Rat) (ra : Option Rat), waitTime ⟨some ms, ra⟩ = ms / 1000)
    ∧ (∀ ra : Rat, waitTime ⟨none, some ra⟩ = ra)
    ∧ waitTime ⟨none, none⟩ = 60
    ∧ (∀ (providers : Option (List String)) (oracle : Nat → LLMOutcome)
        (k : Nat) (hd : RateHeaders),
        oracle k = .rateLimited hd →
        k < (segment_lyrics providers oracle).calls →
        ((segment_lyrics providers oracle).result.success = false
         ∧ (segment_lyrics providers oracle).result.retry_after_seconds =
             some (waitTime hd)
         ∧ k + 1 = (segment_lyrics providers oracle).calls
         ∧ ∃ p a, (segment_lyrics providers oracle).events.getLast? =
               some (SegEvent.call p a)
             ∧ (segment_lyrics providers oracle).result.error =
               some ("Rate limited by " ++ p)))
    ∧ (∀ (songs : List (String × String × String × Int))
        (providers : Option (List String)) (oracle : Nat → BatchLLMOutcome)
        (k : Nat) (hd : RateHeaders),
        oracle k = .rateLimited hd →
        k < (segment_lyrics_batch songs providers oracle).calls →
        ((segment_lyrics_batch songs providers oracle).result.success = false
         ∧ (segment_lyrics_batch songs providers oracle).result.retry_after_seconds =
             some (waitTime hd)
         ∧ k + 1 = (segment_lyrics_batch songs providers oracle).calls
         ∧ ∃ p a, (segment_lyrics_batch songs providers oracle).events.getLast? =
               some (SegEvent.call p a)
             ∧ (segment_lyrics_batch songs providers oracle).result.error =
               some ("Rate limited by " ++ p))) := by
  refine ⟨fun ms ra => rfl, fun ra => rfl, rfl, ?_, ?_⟩
  · intro providers oracle k hd hk hlt
    obtain ⟨h1, h2, h3, p, a, h4, h5⟩ :=
      segProvidersLoop_rl oracle hd (providers.getD LLM_PROVIDERS) 0 none k hk
        (Nat.zero_le k) hlt
    exact ⟨h1, h2, h3, p, a, h4, h5⟩
  · intro songs providers oracle k hd hk hlt
    rw [segment_lyrics_batch] at hlt ⊢
    by_cases hsongs : songs = []
    · rw [if_pos hsongs] at hlt
      simp at hlt
    · rw [if_neg hsongs] at hlt ⊢
      obtain ⟨h1, h2, -, h3, p, a, h4, h5⟩ :=
        batchProvidersLoop_rl songs oracle hd (providers.getD LLM_PROVIDERS) 0
          none k hk (Nat.zero_le k) hlt
      exact ⟨h1, h2, h3, p, a, h4, h5⟩

/-- Witness for C1: a single `groq` provider whose first call is rate limited
with `retry-after-ms: 90000` — the run makes exactly one call, its trace ends
with that call, and `retry_after_seconds = 90`. -/
theorem segmenter_rate_limit_contract_witness :
    ((segment_lyrics (some ["groq"])
        (fun _ => .rateLimited ⟨some 90000, none⟩)).result.retry_after_seconds =
      some 90)
    ∧ ((segment_lyrics (some ["groq"])
        (fun _ => .rateLimited ⟨some 90000, none⟩)).calls = 1)
    ∧ ((segment_lyrics_batch [("la la", "t", "a", 1)] (some ["groq"])
        (fun _ => .rateLimited ⟨none, some 7⟩)).result.retry_after_seconds =
      some 7) := by
  have h1 := segmenter_rate_limit_contract.2.2.2.1 (some ["groq"])
    (fun _ => LLMOutcome.rateLimited ⟨some 90000, none⟩) 0 ⟨some 90000, none⟩
    rfl (by decide)
  have h2 := segmenter_rate_limit_contract.2.2.2.2 [("la la", "t", "a", 1)]
    (some ["groq"]) (fun _ => BatchLLMOutcome.rateLimited ⟨none, some 7⟩) 0
    ⟨none, some 7⟩ rfl (by decide)
  refine ⟨?_, by rw [← h1.2.2.1], ?_⟩
  · rw [h1.2.1]
    simp [waitTime]
    norm_num
  · rw [h2.2.1]
    simp [waitTime]

/-! ## Pipeline runner events (`api/services/pipeline_runner.py`)

`PipelineRunner.start` emits `pipeline_started` and spawns `_run` with
`asyncio.create_task`.  Before its `try:` block (line 149), `_run` executes
six `from ... import` statements (lines 142–147).  Two of them resolve the
name `ENABLE_BATCH_SEGMENTATION` against `src/config.py`: importing
`src.pipeline` (line 143) runs that module's own
`from .config import (..., ENABLE_BATCH_SEGMENTATION, ...)`, and line
145 requests it directly.  `config.py` never binds that name, so the lookup
raises `ImportError` outside the `try`, the `except` at line 325 (which
would emit `pipeline_error`) is never entered, and the exception is
swallowed by the task object: `_run` emits nothing.  The import outcome is
modelled by name lookup against the list of names `config.py` binds; the
remaining imported names (`get_curated_tracks`, `CURATED_DB_PATH`,
`process_track`, `Track`, `segment_lyrics_batch`, `BatchedSongResult`,
`parse_lrc`) all exist in their modules, so the config lookups decide the
outcome.  The external effects of `_run`'s (unreachable) body are modelled
by an environment: the track list, oracles for `segment_lyrics_batch` and
`process_track`, the `_stop_requested` flag at each check, and flags for
`ENABLE_BATCH_SEGMENTATION` / `dry_run` / a fatal exception while listing
tracks.  `runTrace` returns exactly the event types a subscriber that never
drops receives from `_run`. -/

/-- Event types emitted by the runner (payloads are irrelevant to C2). -/
inductive PEvent where
  | started          -- pipeline_started
  | batchStarted     -- batch_segmentation_started
  | batchProgress    -- batch_segmentation_progress
  | batchComplete    -- batch_segmentation_complete
  | rateLimited      -- rate_limited
  | trackStart       -- track_start
  | trackComplete    -- track_complete
  | trackError       -- track_error
  | stopped          -- pipeline_stopped
  | complete         -- pipeline_complete
  | fatalError       -- pipeline_error
  deriving Repr, DecidableEq

/-- Outcome of one `process_track` call: a normal return
`(indexed, errors, _)` or an exception caught by the per-track handler. -/
inductive TrackOutcome where
  | ret (indexed : Nat) (errors : List String)
  | exn (msg : String)
  deriving Repr

/-- `BATCH_SIZE_LLM = 10`. -/
def BATCH_SIZE_LLM : Nat := 10

/-- Contiguous slices of size `n` (`tracks[batch_start:batch_start+n]`). -/
def chunksOfAux {α : Type} (n : Nat) : Nat → List α → List (List α)
  | 0, _ => []
  | _, [] => []
  | fuel + 1, l => l.take n :: chunksOfAux n fuel (l.drop n)

/-- Contiguous slices of size `n`. -/
def chunksOf {α : Type} (n : Nat) (l : List α) : List (List α) :=
  chunksOfAux n l.length l

/-- Every module-level name `src/config.py` binds (imports, assignments,
function definitions): the attribute set that `from src.config import x`
resolves `x` against. -/
def configNames : List String :=
  ["os", "Path", "BASE_DIR", "LRCLIB_DB_PATH", "OUTPUT_DIR", "AUDIO_DIR",
   "SNIPPETS_DIR", "LOGS_DIR", "SKIPPED_SONGS_LOG", "LRCLIB_FILTERS",
   "DURATION_TOLERANCE", "YTDLP_FORMAT", "SEARCH_RESULTS",
   "YTDLP_SEARCH_PREFIX", "MATCH_THRESHOLD", "AUDIO_CODEC", "AUDIO_BITRATE",
   "SNIPPET_FORMAT", "TARGET_SEGMENTS_PER_SONG", "MIN_SEGMENT_DURATION",
   "MAX_SEGMENT_DURATION", "LLM_PROVIDERS", "LLM_MODEL_GROQ",
   "LLM_MODEL_TOGETHER", "EMBEDDING_MODEL", "EMBEDDING_DIMENSION",
   "QDRANT_HOST", "QDRANT_PORT", "QDRANT_COLLECTION", "BATCH_SIZE_LLM",
   "BATCH_SIZE_EMBED", "BATCH_SIZE_INDEX", "MAX_RETRIES", "RETRY_DELAY",
   "get_api_key", "ensure_directories"]

/-- The names `src/pipeline.py` imports from `.config` at module level
(its lines 32–40): `from src.pipeline import process_track` fails unless
every one resolves. -/
def pipelineConfigImports : List String :=
  ["BATCH_SIZE_LLM", "DURATION_TOLERANCE", "ENABLE_BATCH_SEGMENTATION",
   "LLM_PROVIDERS", "OUTPUT_DIR", "QDRANT_HOST", "ensure_directories"]

/-- The names `_run` imports from `src.config` directly (line 145). -/
def runConfigImports : List String :=
  ["ENABLE_BATCH_SEGMENTATION", "BATCH_SIZE_LLM"]

/-- Whether `_run`'s pre-`try` config lookups all succeed. -/
def runImportsOk : Bool :=
  pipelineConfigImports.all (fun n => configNames.contains n)
    && runConfigImports.all (fun n => configNames.contains n)

/-- The environment of one `_run` invocation. -/
structure RunEnv where
  tracks : List String                       -- synced_lyrics per track, post-exclusion
  enableBatch : Bool                         -- ENABLE_BATCH_SEGMENTATION
  dryRun : Bool
  fetchFails : Bool                          -- exception while listing tracks
  batchOut : Nat → BatchSegmentationResult   -- n-th segment_lyrics_batch result
  trackOut : Nat → TrackOutcome              -- i-th process_track outcome
  stopFlag : Nat → Bool                      -- _stop_requested at the k-th check

/-- Phase 1 (batch segmentation) loop: per contiguous batch, check the stop
flag (`break` on stop); pre-parse and keep tracks with ≥ 4 LRC lines; if any
remain, call the batch segmenter — a result carrying `retry_after_seconds`
emits `rate_limited` and aborts the whole run, otherwise
`batch_segmentation_progress` is emitted.  Returns
(events, next check index, next call index, rate-limit-aborted). -/
def phase1Loop (env : RunEnv) :
    List (List String) → Nat → Nat → List PEvent × Nat × Nat × Bool
  | [], c, n => ([], c, n, false)
  | b :: rest, c, n =>
    if env.stopFlag c then ([], c + 1, n, false)
    else
      let songs := b.filter (fun ly => 4 ≤ (parse_lrc ly).total_lines)
      if songs = [] then phase1Loop env rest (c + 1) n
      else
        let res := env.batchOut n
        if res.retry_after_seconds ≠ none then
          ([PEvent.rateLimited], c + 1, n + 1, true)
        else
          let r := phase1Loop env rest (c + 1) (n + 1)
          (PEvent.batchProgress :: r.1, r.2)

/-- Phase 2 (per-track) loop: stop check (`pipeline_stopped` + break),
`track_start`, then `process_track` unless dry-run; empty error list →
ledger success + `track_complete`; a "Rate limited" error → `rate_limited`
and `return` (aborting `_run` before `pipeline_complete`); other errors or an
exception → ledger failed + `track_error`, continue.  Returns
(events, rate-limit-returned). -/
def phase2Loop (env : RunEnv) : List String → Nat → Nat → List PEvent × Bool
  | [], _, _ => ([], false)
  | _ :: rest, c, i =>
    if env.stopFlag c then ([PEvent.stopped], false)
    else if env.dryRun then
      let r := phase2Loop env rest (c + 1) (i + 1)
      (PEvent.trackStart :: PEvent.trackComplete :: r.1, r.2)
    else
      match env.trackOut i with
      | .ret _ errors =>
        if errors = [] then
          let r := phase2Loop env rest (c + 1) (i + 1)
          (PEvent.trackStart :: PEvent.trackComplete :: r.1, r.2)
        else if errors.any (fun e => subIn "Rate limited".data e.data) then
          ([PEvent.trackStart, PEvent.rateLimited], true)
        else
          let r := phase2Loop env rest (c + 1) (i + 1)
          (PEvent.trackStart :: PEvent.trackError :: r.1, r.2)
      | .exn _ =>
        let r := phase2Loop env rest (c + 1) (i + 1)
        (PEvent.trackStart :: PEvent.trackError :: r.1, r.2)

/-- The events `_run` emits.  If any pre-`try` import fails, `_run` raises
before reaching the `try:` block and emits nothing (the empty trace); the
`except`/`finally` at lines 325/331 belong to the later `try` and never
run.  Otherwise (unreachable in this snapshot): a fatal exception while
listing tracks yields `pipeline_error` alone; a Phase-1 rate limit aborts
before `batch_segmentation_complete`; the unconditional `pipeline_complete`
after the Phase-2 loop is reached both on normal completion and after a
stop-`break` — but not after the rate-limit `return`. -/
def runTrace (env : RunEnv) : List PEvent :=
  if !runImportsOk then []
  else if env.fetchFails then [PEvent.fatalError]
  else
    if env.enableBatch ∧ env.tracks ≠ [] then
      let r := phase1Loop env (chunksOf BATCH_SIZE_LLM env.tracks) 0 0
      if r.2.2.2 then PEvent.batchStarted :: r.1
      else
        let p2 := phase2Loop env env.tracks r.2.1 0
        (PEvent.batchStarted :: r.1 ++ [PEvent.batchComplete]) ++ p2.1 ++
          (if p2.2 then [] else [PEvent.complete])
    else
      let p2 := phase2Loop env env.tracks 0 0
      p2.1 ++ (if p2.2 then [] else [PEvent.complete])

/-- The whole job as a subscriber sees it: `start` emits `pipeline_started`
before spawning `_run`. -/
def jobTrace (env : RunEnv) : List PEvent := PEvent.started :: runTrace env

/-- A concrete job environment: one track, batching off, the stop flag
observed set at the first Phase-2 check. -/
def stoppedEnv : RunEnv :=
  { tracks := ["[00:01.00]a"], enableBatch := false, dryRun := false,
    fetchFails := false,
    batchOut := fun _ => ⟨true, [], none, none, none⟩,
    trackOut := fun _ => .ret 0 [], stopFlag := fun _ => true }

/-- Counterexample to C2 as stated: `_run`'s imports before its `try:`
request `ENABLE_BATCH_SEGMENTATION` from `src.config`, which never binds
that name, so every spawned `_run` dies on `ImportError` unseen by the
event bus.  This concrete job emits `pipeline_started` and then nothing:
the subscriber receives NO terminal event at all, refuting the claim's
"exactly one terminal event, which is the last event of the job". -/
theorem pipeline_job_emits_no_terminal_event :
    jobTrace stoppedEnv = [PEvent.started]
    ∧ PEvent.complete ∉ jobTrace stoppedEnv
    ∧ PEvent.stopped ∉ jobTrace stoppedEnv
    ∧ PEvent.fatalError ∉ jobTrace stoppedEnv := by
  refine ⟨rfl, by decide, by decide, by decide⟩

theorem phase1Loop_mem (env : RunEnv) :
    ∀ (chunks : List (List String)) (c n : Nat),
      ∀ e ∈ (phase1Loop env chunks c n).1,
        e = PEvent.batchProgress ∨ e = PEvent.rateLimited := by
  intro chunks
  induction chunks with
  | nil => intro c n e he; simp [phase1Loop] at he
  | cons b rest ih =>
    intro c n e he
    rw [phase1Loop] at he
    by_cases hs : env.stopFlag c
    · rw [if_pos hs] at he; simp at he
    · rw [if_neg hs] at he
      by_cases hb : b.filter (fun ly => 4 ≤ (parse_lrc ly).total_lines) = []
      · rw [if_pos hb] at he
        exact ih (c + 1) n e he
      · rw [if_neg hb] at he
        by_cases hrl : (env.batchOut n).retry_after_seconds ≠ none
        · rw [if_pos hrl] at he; simp at he; simp [he]
        · rw [if_neg hrl] at he
          simp only [List.mem_cons] at he
          rcases he with he | he
          · exact Or.inl he
          · exact ih (c + 1) (n + 1) e he

theorem phase1Loop_last_rl (env : RunEnv) :
    ∀ (chunks : List (List String)) (c n : Nat),
      (phase1Loop env chunks c n).2.2.2 = true →
      (phase1Loop env chunks c n).1.getLast? = some PEvent.rateLimited := by
  intro chunks
  induction chunks with
  | nil => intro c n h; simp [phase1Loop] at h
  | cons b rest ih =>
    intro c n h
    rw [phase1Loop] at h ⊢
    by_cases hs : env.stopFlag c
    · rw [if_pos hs] at h; simp at h
    · rw [if_neg hs] at h ⊢
      by_cases hb : b.filter (fun ly => 4 ≤ (parse_lrc ly).total_lines) = []
      · rw [if_pos hb] at h ⊢
        exact ih (c + 1) n h
      · rw [if_neg hb] at h ⊢
        by_cases hrl : (env.batchOut n).retry_after_seconds ≠ none
        · rw [if_pos hrl]; rfl
        · rw [if_neg hrl] at h ⊢
          have := ih (c + 1) (n + 1) h
          have hne : (phase1Loop env rest (c + 1) (n + 1)).1 ≠ [] := by
            intro hc; rw [hc] at this; simp at this
          show (PEvent.batchProgress :: ([] ++ (phase1Loop env rest (c + 1) (n + 1)).1)).getLast? =
            some PEvent.rateLimited
          exact getLast?_cons_append _ _ _ _ this

theorem phase2Loop_props (env : RunEnv) :
    ∀ (tracks : List String) (c i : Nat),
      (∀ e ∈ (phase2Loop env tracks c i).1,
        e = PEvent.trackStart ∨ e = PEvent.trackComplete ∨
        e = PEvent.trackError ∨ e = PEvent.stopped ∨ e = PEvent.rateLimited)
      ∧ ((phase2Loop env tracks c i).2 = true →
          (phase2Loop env tracks c i).1.getLast? = some PEvent.rateLimited
          ∧ PEvent.stopped ∉ (phase2Loop env tracks c i).1)
      ∧ ((phase2Loop env tracks c i).2 = false →
          PEvent.stopped ∈ (phase2Loop env tracks c i).1 →
          ∃ pre, (phase2Loop env tracks c i).1 = pre ++ [PEvent.stopped]
            ∧ PEvent.stopped ∉ pre) := by
  intro tracks
  induction tracks with
  | nil =>
    intro c i
    refine ⟨by simp [phase2Loop], by simp [phase2Loop], by simp [phase2Loop]⟩
  | cons t rest ih =>
    intro c i
    rw [phase2Loop]
    by_cases hs : env.stopFlag c
    · rw [if_pos hs]
      refine ⟨by intro e he; simp at he; simp [he], by simp, ?_⟩
      intro _ _
      exact ⟨[], rfl, by simp⟩
    · rw [if_neg hs]
      have step : ∀ (x : PEvent), x = PEvent.trackComplete ∨ x = PEvent.trackError →
          (∀ e ∈ (PEvent.trackStart :: x :: (phase2Loop env rest (c + 1) (i + 1)).1,
              (phase2Loop env rest (c + 1) (i + 1)).2).1,
            e = PEvent.trackStart ∨ e = PEvent.trackComplete ∨
            e = PEvent.trackError ∨ e = PEvent.stopped ∨ e = PEvent.rateLimited)
          ∧ ((PEvent.trackStart :: x :: (phase2Loop env rest (c + 1) (i + 1)).1,
              (phase2Loop env rest (c + 1) (i + 1)).2).2 = true →
              (PEvent.trackStart :: x :: (phase2Loop env rest (c + 1) (i + 1)).1,
                (phase2Loop env rest (c + 1) (i + 1)).2).1.getLast? =
                  some PEvent.rateLimited
              ∧ PEvent.stopped ∉ (PEvent.trackStart :: x ::
                  (phase2Loop env rest (c + 1) (i + 1)).1,
                  (phase2Loop env rest (c + 1) (i + 1)).2).1)
          ∧ ((PEvent.trackStart :: x :: (phase2Loop env rest (c + 1) (i + 1)).1,
              (phase2Loop env rest (c + 1) (i + 1)).2).2 = false →
              PEvent.stopped ∈ (PEvent.trackStart :: x ::
                (phase2Loop env rest (c + 1) (i + 1)).1,
                (phase2Loop env rest (c + 1) (i + 1)).2).1 →
              ∃ pre, (PEvent.trackStart :: x ::
                (phase2Loop env rest (c + 1) (i + 1)).1,
                (phase2Loop env rest (c + 1) (i + 1)).2).1 =
                  pre ++ [PEvent.stopped] ∧ PEvent.stopped ∉ pre) := by
        intro x hx
        obtain ⟨ihm, ihrl, ihst⟩ := ih (c + 1) (i + 1)
        refine ⟨?_, ?_, ?_⟩
        · intro e he
          simp only [List.mem_cons] at he
          rcases he with he | he | he
          · exact Or.inl he
          · rcases hx with hx | hx
            · exact Or.inr (Or.inl (he.trans hx))
            · exact Or.inr (Or.inr (Or.inl (he.trans hx)))
          · exact ihm e he
        · intro hrl
          obtain ⟨hlast, hnost⟩ := ihrl hrl
          have hne : (phase2Loop env rest (c + 1) (i + 1)).1 ≠ [] := by
            intro hc; rw [hc] at hlast; simp at hlast
          refine ⟨?_, ?_⟩
          · show (PEvent.trackStart :: ([x] ++
              (phase2Loop env rest (c + 1) (i + 1)).1)).getLast? =
                some PEvent.rateLimited
            exact getLast?_cons_append _ _ _ _ hlast
          · simp only [List.mem_cons, not_or]
            refine ⟨by simp, ?_, hnost⟩
            rcases hx with hx | hx <;> simp [hx]
        · intro hrl hmem
          simp only [List.mem_cons] at hmem
          rcases hmem with hmem | hmem | hmem
          · exact absurd hmem.symm (by simp)
          · rcases hx with hx | hx <;> rw [hx] at hmem <;> simp at hmem
          · obtain ⟨pre, hpre, hnpre⟩ := ihst hrl hmem
            refine ⟨PEvent.trackStart :: x :: pre, ?_, ?_⟩
            · simp [hpre]
            · simp only [List.mem_cons, not_or]
              refine ⟨by simp, ?_, hnpre⟩
              rcases hx with hx | hx <;> simp [hx]
      by_cases hd : env.dryRun
      · rw [if_pos hd]
        exact step PEvent.trackComplete (Or.inl rfl)
      · rw [if_neg hd]
        cases ho : env.trackOut i with
        | ret indexed errors =>
          dsimp only
          by_cases he0 : errors = []
          · rw [if_pos he0]
            exact step PEvent.trackComplete (Or.inl rfl)
          · rw [if_neg he0]
            by_cases hrlm : errors.any (fun e => subIn "Rate limited".data e.data)
            · rw [if_pos hrlm]
              refine ⟨by intro e he; simp at he; rcases he with he | he <;> simp [he],
                ?_, by simp⟩
              intro _
              exact ⟨rfl, by simp⟩
            · rw [if_neg hrlm]
              exact step PEvent.trackError (Or.inr rfl)
        | exn msg =>
          exact step PEvent.trackError (Or.inr rfl)

theorem count_eq_zero_of_all_ne (l : List PEvent) (x : PEvent)
    (h : ∀ e ∈ l, e ≠ x) : l.count x = 0 :=
  List.count_eq_zero.mpr (fun hc => (h _ hc) rfl)

/-- Shape lemma: every non-fatal `_run` trace is
`started :: A ++ p2 ++ (if rl then [] else [complete])` where `A` holds only
batch-family events and `p2` satisfies the Phase-2 loop properties. -/
theorem jobShape_props (A p2 : List PEvent) (rl : Bool)
    (hA : ∀ e ∈ A, e = PEvent.batchStarted ∨ e = PEvent.batchProgress ∨
        e = PEvent.batchComplete ∨ e = PEvent.rateLimited)
    (hmem2 : ∀ e ∈ p2, e = PEvent.trackStart ∨ e = PEvent.trackComplete ∨
        e = PEvent.trackError ∨ e = PEvent.stopped ∨ e = PEvent.rateLimited)
    (hrl : rl = true → p2.getLast? = some PEvent.rateLimited ∧ PEvent.stopped ∉ p2)
    (hst : rl = false → PEvent.stopped ∈ p2 →
        ∃ pre, p2 = pre ++ [PEvent.stopped] ∧ PEvent.stopped ∉ pre) :
    letI tr := PEvent.started :: A ++ p2 ++
      (if rl then [] else [PEvent.complete])
    (tr.head? = some PEvent.started)
    ∧ (tr.count PEvent.started = 1)
    ∧ (tr.getLast? = some PEvent.complete
        ∨ tr.getLast? = some PEvent.fatalError
        ∨ tr.getLast? = some PEvent.rateLimited)
    ∧ (tr.count PEvent.complete ≤ 1
        ∧ tr.count PEvent.fatalError ≤ 1
        ∧ tr.count PEvent.stopped ≤ 1)
    ∧ (PEvent.stopped ∈ tr →
        ∃ pre, tr = pre ++ [PEvent.stopped, PEvent.complete]) := by
  have hAcount : ∀ x : PEvent, x ≠ PEvent.batchStarted →
      x ≠ PEvent.batchProgress → x ≠ PEvent.batchComplete →
      x ≠ PEvent.rateLimited → A.count x = 0 := by
    intro x h1 h2 h3 h4
    exact count_eq_zero_of_all_ne A x (fun e he => by
      rcases hA e he with h | h | h | h <;> subst h
      · exact fun hc => h1 (Eq.symm hc)
      · exact fun hc => h2 (Eq.symm hc)
      · exact fun hc => h3 (Eq.symm hc)
      · exact fun hc => h4 (Eq.symm hc))
  have hp2count : ∀ x : PEvent, x ≠ PEvent.trackStart →
      x ≠ PEvent.trackComplete → x ≠ PEvent.trackError → x ≠ PEvent.stopped →
      x ≠ PEvent.rateLimited → p2.count x = 0 := by
    intro x h1 h2 h3 h4 h5
    exact count_eq_zero_of_all_ne p2 x (fun e he => by
      rcases hmem2 e he with h | h | h | h | h <;> subst h <;>
        first
          | exact fun hc => h1 hc.symm
          | exact fun hc => h2 hc.symm
          | exact fun hc => h3 hc.symm
          | exact fun hc => h4 hc.symm
          | exact fun hc => h5 hc.symm)
  refine ⟨rfl, ?_, ?_, ⟨?_, ?_, ?_⟩, ?_⟩
  · simp only [List.count_cons, List.count_append,
      hAcount PEvent.started (by decide) (by decide) (by decide) (by decide),
      hp2count PEvent.started (by decide) (by decide) (by decide) (by decide)
        (by decide)]
    cases rl <;> simp
  · cases rl with
    | true =>
      right; right
      obtain ⟨hlast, -⟩ := hrl rfl
      have hne : p2 ≠ [] := by intro hc; rw [hc] at hlast; simp at hlast
      have heq : PEvent.started :: A ++ p2 ++
          (if (true : Bool) = true then ([] : List PEvent)
            else [PEvent.complete]) = (PEvent.started :: A) ++ p2 := by
        simp
      rw [heq, List.getLast?_append_of_ne_nil _ hne, hlast]
    | false =>
      left
      have heq : PEvent.started :: A ++ p2 ++
          (if (false : Bool) = true then ([] : List PEvent)
            else [PEvent.complete]) =
          (PEvent.started :: (A ++ p2)) ++ [PEvent.complete] := by
        simp
      rw [heq, List.getLast?_append_of_ne_nil _
        (by simp : ([PEvent.complete] : List PEvent) ≠ [])]
      rfl
  · simp only [List.count_cons, List.count_append,
      hAcount PEvent.complete (by decide) (by decide) (by decide) (by decide),
      hp2count PEvent.complete (by decide) (by decide) (by decide) (by decide)
        (by decide)]
    cases rl <;> simp
  · simp only [List.count_cons, List.count_append,
      hAcount PEvent.fatalError (by decide) (by decide) (by decide) (by decide),
      hp2count PEvent.fatalError (by decide) (by decide) (by decide) (by decide)
        (by decide)]
    cases rl <;> simp
  · simp only [List.count_cons, List.count_append,
      hAcount PEvent.stopped (by decide) (by decide) (by decide) (by decide)]
    have htail : (if rl = true then ([] : List PEvent)
        else [PEvent.complete]).count PEvent.stopped = 0 := by
      cases rl <;> simp
    rw [htail]
    cases rl with
    | true =>
      obtain ⟨-, hno⟩ := hrl rfl
      rw [List.count_eq_zero.mpr hno]
      simp
    | false =>
      by_cases hmem : PEvent.stopped ∈ p2
      · obtain ⟨pre, hpre, hnpre⟩ := hst rfl hmem
        rw [hpre]
        simp [List.count_append, List.count_eq_zero.mpr hnpre]
      · rw [List.count_eq_zero.mpr hmem]
        simp
  · intro hmem
    have hin2 : PEvent.stopped ∈ p2 := by
      rcases List.mem_cons.mp hmem with hmem | hmem
      · simp at hmem
      · rcases List.mem_append.mp hmem with h | h
        · rcases List.mem_append.mp h with h2 | h2
          · rcases hA _ h2 with h4 | h4 | h4 | h4 <;> simp at h4
          · exact h2
        · exfalso
          cases rl <;> simp_all
    have hrlf : rl = false := by
      cases rl with
      | true => exact absurd hin2 (hrl rfl).2
      | false => rfl
    subst hrlf
    obtain ⟨pre, hpre, -⟩ := hst rfl hin2
    refine ⟨PEvent.started :: A ++ pre, ?_⟩
    rw [hpre]
    simp

/-- C2 (amended).  In this snapshot no pipeline job can emit a terminal
event: `config.py` does not bind `ENABLE_BATCH_SEGMENTATION`, yet both
`src.pipeline`'s module-level config import and `_run`'s own line-145
one request it, so `_run`'s pre-`try` imports raise `ImportError` and
the spawned task dies silently before the `try:` block whose handler would
emit `pipeline_error`.  For EVERY environment, a subscriber present for
the whole job receives `pipeline_started` exactly once and nothing else:
no `pipeline_complete`, `pipeline_stopped` or `pipeline_error` is ever
emitted, and the claim's exactly-one-terminal-event guarantee fails for
every job. -/
theorem pipeline_event_structure (env : RunEnv) :
    (configNames.contains "ENABLE_BATCH_SEGMENTATION" = false
      ∧ "ENABLE_BATCH_SEGMENTATION" ∈ pipelineConfigImports
      ∧ "ENABLE_BATCH_SEGMENTATION" ∈ runConfigImports
      ∧ runImportsOk = false)
    ∧ jobTrace env = [PEvent.started]
    ∧ (jobTrace env).head? = some PEvent.started
    ∧ (jobTrace env).count PEvent.started = 1
    ∧ PEvent.complete ∉ jobTrace env
    ∧ PEvent.stopped ∉ jobTrace env
    ∧ PEvent.fatalError ∉ jobTrace env := by
  have hio : runImportsOk = false := by decide
  have hrt : runTrace env = [] := by rw [runTrace, hio]; rfl
  refine ⟨⟨by decide, by decide, by decide, hio⟩, ?_, ?_, ?_, ?_, ?_, ?_⟩ <;>
    (rw [jobTrace, hrt]; try decide)

/-! ## Audio candidate scoring (`src/audio.py`)

`fuzzy_contains` relies on `difflib.SequenceMatcher.ratio`, modelled here from
the standard library's documented Ratcliff–Obershelp algorithm (for the short
strings in scope no autojunk applies): the total of matching characters is the
size of the longest common block — ties resolved to the lexicographically
earliest `(i, j)`, as `find_longest_match`'s scan order does — plus,
recursively, the matches of the pieces left and right of it.  The float
comparisons `ratio > 0.7` and `matched / n ≥ 0.7` are modelled by the exact
rational comparisons `20·M > 7·T` and `10·matched ≥ 7·n`: for the word sizes
involved the only rational near the float literal `0.7` is `7/10` itself, so
float rounding cannot flip either comparison.  Durations and scores are
rationals. -/

/-- Length of the common prefix of two character lists. -/
def commonPrefixLen : List Char → List Char → Nat
  | a :: as, b :: bs => if a = b then commonPrefixLen as bs + 1 else 0
  | _, _ => 0

/-- `find_longest_match` over whole strings: the `(i, j, size)` of the longest
common block, earliest `(i, j)` on ties (difflib's scan order). -/
def bestBlock (a b : List Char) : Nat × Nat × Nat :=
  (List.range a.length).foldl (fun acc i =>
    (List.range b.length).foldl (fun acc j =>
      let k := commonPrefixLen (a.drop i) (b.drop j)
      if k > acc.2.2 then (i, j, k) else acc) acc) (0, 0, 0)

/-- Total matched characters of `get_matching_blocks`, by the recursive
longest-block decomposition.  The fuel bounds the recursion depth; at each
recursive call the first list strictly shrinks (the block has size ≥ 1), so
`a.length` fuel always suffices, and the structural recursion keeps the
definition kernel-reducible. -/
def matchingCharsAux : Nat → List Char → List Char → Nat
  | 0, _, _ => 0
  | fuel + 1, a, b =>
    let t := bestBlock a b
    if t.2.2 = 0 then 0
    else
      t.2.2 + matchingCharsAux fuel (a.take t.1) (b.take t.2.1) +
        matchingCharsAux fuel (a.drop (t.1 + t.2.2)) (b.drop (t.2.1 + t.2.2))

/-- Total matched characters `M` of `SequenceMatcher(None, a, b)`. -/
def matchingChars (a b : List Char) : Nat := matchingCharsAux a.length a b

/-- The comparison `SequenceMatcher(...).ratio() > 0.7`, i.e.
`2M / (|a| + |b|) > 7/10`, in cross-multiplied exact form. -/
def ratioGt7of10 (a b : List Char) : Bool :=
  decide (20 * matchingChars a b > 7 * (a.length + b.length))

/-- `fuzzy_contains(haystack, needle)`: exact case-insensitive substring
first, else ≥ 70 % of needle words must fuzzy-match (ratio > 0.7) some
haystack word.  (The `threshold` parameter is never overridden by callers;
its default 0.7 is inlined in the exact-rational form.) -/
def fuzzy_contains (haystack needle : String) : Bool :=
  let haystack_lower := pyLower haystack.data
  let needle_lower := pyLower needle.data
  if subIn needle_lower haystack_lower then true
  else
    let needle_words := pyWords needle_lower
    let haystack_words := pyWords haystack_lower
    if needle_words = [] then false
    else
      let matched := (needle_words.filter (fun w =>
        haystack_words.any (fun hw => ratioGt7of10 w hw))).length
      decide (10 * matched ≥ 7 * needle_words.length)

/-- A YouTube search result candidate (`SearchCandidate`). -/
structure SearchCandidate where
  video_id : String
  title : String
  uploader : String
  duration : Rat
  score : Rat := 0
  deriving Repr, DecidableEq

/-- `MATCH_THRESHOLD = 50` (`src/config.py`). -/
def MATCH_THRESHOLD : Rat := 50

/-- The `official_keywords` uploader test of `score_candidate`. -/
def officialKeyword (uploader : String) : Bool :=
  ["official", "vevo", "records", "music", "topic"].any
    (fun kw => subIn kw.data (pyLower uploader.data))

/-- `score_candidate`: +50 title match, +40/+30 artist in title/uploader,
−30 anti-cover penalty when the title matched but no artist did, duration
drift tiers +20/+10/+5/−20, +10 official-channel bonus. -/
def score_candidate (candidate : SearchCandidate)
    (expected_title expected_artist : String)
    (expected_duration : Rat) : Rat :=
  let title_matched := fuzzy_contains candidate.title expected_title
  let artist_in_title := fuzzy_contains candidate.title expected_artist
  let artist_in_uploader := fuzzy_contains candidate.uploader expected_artist
  let artist_matched := artist_in_title || artist_in_uploader
  let drift := |candidate.duration - expected_duration|
  (if title_matched then (50 : Rat) else 0) +
    (if artist_in_title then (40 : Rat)
      else if artist_in_uploader then 30 else 0) +
    (if title_matched && !artist_matched then (-30 : Rat) else 0) +
    (if drift ≤ 1 then (20 : Rat) else if drift ≤ 2 then 10
      else if drift ≤ 5 then 5 else -20) +
    (if officialKeyword candidate.uploader then (10 : Rat) else 0)

/-- The acceptance decision of `download_audio` after all searches (lines
338–359): rescore every candidate, sort descending by score (stable), and
reject when the best is below `MATCH_THRESHOLD`.  `none` models the earlier
"no search results" failure; `some false`/`some true` the
below-threshold failure / proceeding to download. -/
def downloadDecision (candidates : List SearchCandidate)
    (expected_title expected_artist : String)
    (expected_duration : Rat) : Option Bool :=
  match candidates with
  | [] => none
  | c₀ :: rest =>
    let scored := (c₀ :: rest).map (fun c =>
      { c with score :=
          score_candidate c expected_title expected_artist expected_duration })
    let sorted := scored.insertionSort (fun c d => d.score ≤ c.score)
    match sorted with
    | [] => none
    | best :: _ => if best.score < MATCH_THRESHOLD then some false else some true

/-- Counterexample to C8 as stated: a cover-only candidate (title matches the
song, neither title nor uploader matches the expected artist) whose duration
drift is ≤ 1 s and whose uploader contains an official keyword scores exactly
50 − 30 + 20 + 10 = 50 and IS accepted — such a candidate is not always
rejected. -/
theorem cover_only_candidate_accepted_at_50 :
    (fuzzy_contains "song title cover" "song title" = true
      ∧ fuzzy_contains "song title cover" "zz" = false
      ∧ fuzzy_contains "best covers music" "zz" = false)
    ∧ score_candidate ⟨"v1", "song title cover", "best covers music", 200, 0⟩
        "song title" "zz" 200 = 50
    ∧ downloadDecision [⟨"v1", "song title cover", "best covers music", 200, 0⟩]
        "song title" "zz" 200 = some true := by
  refine ⟨⟨by decide, by decide, by decide⟩, ?_, ?_⟩
  · rw [score_candidate]
    simp only [(by decide : fuzzy_contains "song title cover" "song title" = true),
      (by decide : fuzzy_contains "song title cover" "zz" = false),
      (by decide : fuzzy_contains "best covers music" "zz" = false),
      (by decide : officialKeyword "best covers music" = true)]
    norm_num
  · rw [downloadDecision]
    simp only [List.map, List.insertionSort, List.orderedInsert]
    rw [score_candidate]
    simp only [(by decide : fuzzy_contains "song title cover" "song title" = true),
      (by decide : fuzzy_contains "song title cover" "zz" = false),
      (by decide : fuzzy_contains "best covers music" "zz" = false),
      (by decide : officialKeyword "best covers music" = true)]
    norm_num [MATCH_THRESHOLD]

/-- C8 (amended).  For a cover-only candidate — title fuzzy-matches the
expected song, neither title nor uploader fuzzy-matches the expected artist —
the −30 anti-cover penalty applies, so the score is 20 plus only the duration
and official-channel contributions; absent an official keyword the score is
at most 40 < 50 and the candidate is rejected; `download_audio` accepts a
best candidate exactly when its score reaches the threshold 50 (a score of
exactly 50 is accepted; any score below 50, the nearest achievable being 45,
is rejected).  With both bonuses (drift ≤ 1 s and an official keyword) the
score reaches exactly 50 and the cover IS accepted, as the counterexample
shows. -/
theorem score_candidate_cover_penalty (c : SearchCandidate)
    (etitle eartist : String) (edur : Rat)
    (ht : fuzzy_contains c.title etitle = true)
    (ha1 : fuzzy_contains c.title eartist = false)
    (ha2 : fuzzy_contains c.uploader eartist = false) :
    (score_candidate c etitle eartist edur =
      20 + (if |c.duration - edur| ≤ 1 then (20 : Rat)
          else if |c.duration - edur| ≤ 2 then 10
          else if |c.duration - edur| ≤ 5 then 5 else -20) +
        (if officialKeyword c.uploader then (10 : Rat) else 0))
    ∧ (officialKeyword c.uploader = false →
        score_candidate c etitle eartist edur < 50)
    ∧ (∀ c' : SearchCandidate,
        downloadDecision [c'] etitle eartist edur =
          some (decide (MATCH_THRESHOLD ≤ score_candidate c' etitle eartist edur))) := by
  refine ⟨?_, ?_, ?_⟩
  · rw [score_candidate]
    simp only [ht, ha1, ha2]
    norm_num
  · intro hoff
    rw [score_candidate]
    simp only [ht, ha1, ha2, hoff]
    norm_num
    split
    · norm_num
    · split
      · norm_num
      · split <;> norm_num
  · intro c'
    rw [downloadDecision]
    simp only [List.map, List.insertionSort, List.orderedInsert]
    by_cases hlt : score_candidate c' etitle eartist edur < MATCH_THRESHOLD
    · rw [if_pos hlt]
      rw [decide_eq_false (by rw [not_le]; exact hlt)]
    · rw [if_neg hlt]
      rw [decide_eq_true (by rw [← not_lt]; exact hlt)]

/-- Witness for C8's amended theorem: a cover-only candidate with drift
100 s and a non-official uploader scores 20 − 20 = 0 and is rejected. -/
theorem score_candidate_cover_penalty_witness :
    downloadDecision [⟨"v2", "song title cover", "zy covers", 300, 0⟩]
      "song title" "zz" 200 = some false := by
  have h := score_candidate_cover_penalty
    ⟨"v2", "song title cover", "zy covers", 300, 0⟩ "song title" "zz" 200
    (by decide) (by decide) (by decide)
  rw [h.2.2 ⟨"v2", "song title cover", "zy covers", 300, 0⟩]
  have hlt := h.2.1 (by decide)
  rw [decide_eq_false (by rw [not_le]; exact lt_of_lt_of_le hlt (by norm_num [MATCH_THRESHOLD]))]

/-! ## Song-key normalisation (`src/curated.py`)

`normalize_song_key`'s inner `normalize` lowercases and strips, truncates at
the first featuring-artist pattern found (`str.find`, patterns tried in
order), deletes each of seven parenthesized suffix literals everywhere
(`str.replace` with empty replacement: left-to-right, non-overlapping),
filters to alphanumeric-or-space (ASCII model of `str.isalnum`), and
rejoins the whitespace-split words with single spaces. -/

/-- Python `s.find(pat)` restricted to a found/not-found answer with the
index: first position where `pat` occurs, `none` if absent. -/
def pyFind (pat : List Char) : List Char → Option Nat
  | [] => if pat.isPrefixOf ([] : List Char) then some 0 else none
  | c :: t =>
    if pat.isPrefixOf (c :: t) then some 0 else (pyFind pat t).map (· + 1)

/-- `s[:idx] if (idx := s.find(pat)) != -1 else s`: truncate at the first
occurrence of `pat`. -/
def cutAt (pat s : List Char) : List Char :=
  match pyFind pat s with
  | some i => s.take i
  | none => s

/-- The featuring-artist patterns, in the order the loop tries them. -/
def featPats : List (List Char) :=
  [" ft.", " feat.", " featuring", " ft ", " feat ", "(ft.", "(feat."].map
    String.data

/-- The featuring-removal loop: each pattern in order truncates at its first
occurrence in the current string. -/
def applyFeatCuts (s : List Char) : List Char :=
  featPats.foldl (fun acc p => cutAt p acc) s

/-- The suffix literals removed by `s.replace(suffix, '')`, in loop order. -/
def sufPats : List (List Char) :=
  ["(official)", "(lyrics)", "(audio)", "(video)", "(official video)",
    "(official audio)", "(lyric video)"].map String.data

/-- `s.replace(pat, '')`: delete every occurrence, scanning left to right
without overlap.  The fuel starts at `s.length`; every step consumes at
least one character (the patterns are nonempty), so it always suffices. -/
def removeAllAux (pat : List Char) : Nat → List Char → List Char
  | 0, s => s
  | _ + 1, [] => []
  | fuel + 1, c :: t =>
    if pat.isPrefixOf (c :: t) then removeAllAux pat fuel ((c :: t).drop pat.length)
    else c :: removeAllAux pat fuel t

/-- `s.replace(pat, '')` at full fuel. -/
def removeAll (pat s : List Char) : List Char := removeAllAux pat s.length s

/-- The suffix-removal loop. -/
def applySufRemovals (s : List Char) : List Char :=
  sufPats.foldl (fun acc p => removeAll p acc) s

/-- The inner `normalize(s)` of `normalize_song_key`. -/
def snkNormalize (s : List Char) : List Char :=
  let s1 := trimChars (pyLower s)
  let s2 := applyFeatCuts s1
  let s3 := applySufRemovals s2
  let s4 := s3.filter (fun c => c.isAlphanum || wsChar c)
  List.intercalate [' '] (pyWords s4)

/-- `normalize_song_key(artist, title) = f"{normalize(artist)}|{normalize(title)}"`. -/
def normalize_song_key (artist title : String) : String :=
  String.mk (snkNormalize artist.data ++ '|' :: snkNormalize title.data)

/-- Counterexample to C9 as stated: the key is NOT invariant under every
suffix `clean_title` can remove — `normalize_song_key` never calls
`clean_title` and its own suffix list has no bracketed forms, so appending
"[HD]" changes the key; appending the removable "(official video)" after a
title ending in "ft" activates the " ft " featuring cut and changes the key;
and appending a featuring suffix " ft. x" to an empty title changes the key
(after `strip` the pattern's leading space is gone, so nothing is cut). -/
theorem normalize_song_key_not_invariant :
    normalize_song_key "a" "song [HD]" ≠ normalize_song_key "a" "song"
    ∧ normalize_song_key "a" "x ft (official video)"
        ≠ normalize_song_key "a" "x ft"
    ∧ normalize_song_key "a" " ft. x" ≠ normalize_song_key "a" "" := by
  refine ⟨by decide, by decide, by decide⟩

/-! Supporting lemmas for the amended C9 invariance theorem.  `noSpan p t u`
says no occurrence of `p` in `t ++ u` straddles the boundary. -/

/-- No occurrence of `p` straddles the boundary between `t` and `u`. -/
def noSpan (p t u : List Char) : Prop :=
  ∀ k, 0 < k → k < p.length → ¬ (p.take k <:+ t ∧ p.drop k <+: u)

/-- Decidable sufficient condition for `noSpan`, modulo an exception list
`ks` of split points that must be excluded by facts about `t`. -/
def dropsClear (p u : List Char) (ks : List Nat) : Bool :=
  (List.range p.length).all
    (fun k => decide (k = 0) || ks.elem k || !(p.drop k).isPrefixOf u)

lemma noSpan_of_dropsClear (ks : List Nat) {p u : List Char}
    (h : dropsClear p u ks = true) (t : List Char)
    (hks : ∀ k ∈ ks, ¬ p.take k <:+ t) : noSpan p t u := by
  intro k hk0 hklen ⟨hsuf, hpre⟩
  have hall := List.all_eq_true.mp h k (List.mem_range.mpr hklen)
  rcases Bool.or_eq_true_iff.mp hall with h1 | h2
  · rcases Bool.or_eq_true_iff.mp h1 with h0 | hmem
    · exact absurd (of_decide_eq_true h0) (Nat.pos_iff_ne_zero.mp hk0)
    · exact hks k (List.elem_iff.mp hmem) hsuf
  · rw [Bool.not_eq_true'] at h2
    exact absurd (List.isPrefixOf_iff_prefix.mpr hpre) (by simp [h2])

lemma pyFind_cons_none {p : List Char} {c : Char} {t : List Char}
    (h : pyFind p (c :: t) = none) : ¬ p <+: (c :: t) ∧ pyFind p t = none := by
  rw [pyFind] at h
  by_cases hp : p.isPrefixOf (c :: t)
  · rw [if_pos hp] at h; exact absurd h (by simp)
  · rw [if_neg hp] at h
    exact ⟨fun hc => hp (List.isPrefixOf_iff_prefix.mpr hc),
      Option.map_eq_none'.mp h⟩

lemma not_prefix_of_append {p t u : List Char} (htne : t ≠ [])
    (hnp : ¬ p <+: t) (hns : noSpan p t u) : ¬ p <+: (t ++ u) := by
  intro hc
  by_cases hlen : p.length ≤ t.length
  · exact hnp (List.prefix_of_prefix_length_le hc (List.prefix_append t u) hlen)
  · have htp : t <+: p :=
      List.prefix_of_prefix_length_le (List.prefix_append t u) hc (le_of_not_le hlen)
    obtain ⟨r, rfl⟩ := htp
    have hr : r <+: u := by
      obtain ⟨s, hs⟩ := hc
      rw [List.append_assoc] at hs
      exact ⟨s, List.append_cancel_left hs⟩
    refine hns t.length (List.length_pos.mpr htne)
      (by have h := not_le.mp hlen; simp only [List.length_append] at h ⊢; omega) ?_
    rw [List.take_left, List.drop_left]
    exact ⟨List.suffix_refl t, hr⟩

lemma noSpan_of_cons {p : List Char} {c : Char} {t u : List Char}
    (h : noSpan p (c :: t) u) : noSpan p t u := by
  intro k h1 h2 ⟨hs, hp⟩
  exact h k h1 h2 ⟨hs.trans (List.suffix_cons c t), hp⟩

/-- Occurrence search distributes over an append with no straddling
occurrence: the result is the search in `u`, shifted. -/
lemma pyFind_append {p : List Char} (t : List Char) {u : List Char}
    (h1 : pyFind p t = none) (h2 : noSpan p t u) :
    pyFind p (t ++ u) = (pyFind p u).map (· + t.length) := by
  induction t with
  | nil => cases h : pyFind p u <;> simp [h]
  | cons c t' ih =>
    obtain ⟨hnp, h1'⟩ := pyFind_cons_none h1
    have hnp2 : ¬ p.isPrefixOf (c :: (t' ++ u)) = true := fun hx =>
      not_prefix_of_append (by simp) hnp h2 (List.isPrefixOf_iff_prefix.mp hx)
    rw [List.cons_append, pyFind, if_neg hnp2, ih h1' (noSpan_of_cons h2)]
    cases pyFind p u with
    | none => simp
    | some v => simp; omega

lemma pyFind_of_prefix {p u : List Char} (hpne : p ≠ []) (h : p <+: u) :
    pyFind p u = some 0 := by
  cases u with
  | nil => exact absurd (List.prefix_nil.mp h) hpne
  | cons c t => rw [pyFind, if_pos (List.isPrefixOf_iff_prefix.mpr h)]

lemma pyFind_boundary {p t u : List Char} (hpne : p ≠ [])
    (h1 : pyFind p t = none) (h2 : noSpan p t u) (h3 : p <+: u) :
    pyFind p (t ++ u) = some t.length := by
  rw [pyFind_append t h1 h2, pyFind_of_prefix hpne h3, Option.map_some']
  simp

lemma cutAt_of_none {p s : List Char} (h : pyFind p s = none) :
    cutAt p s = s := by rw [cutAt, h]

lemma cutAt_boundary {p t u : List Char} (h : pyFind p (t ++ u) = some t.length) :
    cutAt p (t ++ u) = t := by rw [cutAt, h]; exact List.take_left t u

lemma removeAllAux_of_none {p : List Char} :
    ∀ fuel s, pyFind p s = none → removeAllAux p fuel s = s := by
  intro fuel
  induction fuel with
  | zero => intro s _; rfl
  | succ f ih =>
    intro s h
    cases s with
    | nil => rfl
    | cons c t =>
      obtain ⟨hnp, ht⟩ := pyFind_cons_none h
      have hnp' : ¬ p.isPrefixOf (c :: t) = true := fun hx =>
        hnp (List.isPrefixOf_iff_prefix.mp hx)
      rw [removeAllAux, if_neg hnp', ih t ht]

lemma removeAll_of_none {p s : List Char} (h : pyFind p s = none) :
    removeAll p s = s := removeAllAux_of_none s.length s h

/-- `str.replace` distributes over an append with no straddling
occurrence and none in the left part. -/
lemma removeAll_append {p : List Char} (t : List Char) {u : List Char}
    (h1 : pyFind p t = none) (h2 : noSpan p t u) :
    removeAll p (t ++ u) = t ++ removeAll p u := by
  induction t with
  | nil => simp
  | cons c t' ih =>
    obtain ⟨hnp, h1'⟩ := pyFind_cons_none h1
    have hnp2 : ¬ p.isPrefixOf (c :: (t' ++ u)) = true := fun hx =>
      not_prefix_of_append (by simp) hnp h2 (List.isPrefixOf_iff_prefix.mp hx)
    have hstep : removeAll p ((c :: t') ++ u) = c :: removeAll p (t' ++ u) := by
      rw [List.cons_append, removeAll,
        show (c :: (t' ++ u)).length = (t' ++ u).length + 1 by simp,
        removeAllAux, if_neg hnp2]
      rfl
    rw [hstep, ih h1' (noSpan_of_cons h2), List.cons_append]

lemma alpha_not_ws {c : Char} (h : c.isAlpha = true) : wsChar c = false := by
  rw [wsChar]
  by_contra hw
  rw [Bool.not_eq_false] at hw
  simp [Char.isWhitespace] at hw
  rcases hw with ((h1 | h1) | h1) | h1 <;> (subst h1; simp at h)

lemma dropWhile_fix_of_trim {t : List Char} (h : trimChars t = t) :
    t.dropWhile wsChar = t := by
  have hsuf : t.dropWhile wsChar <:+ t := List.dropWhile_suffix wsChar
  refine hsuf.sublist.eq_of_length (le_antisymm hsuf.sublist.length_le ?_)
  conv_lhs => rw [← h]
  rw [trimChars, List.length_reverse]
  exact le_trans
    (List.dropWhile_suffix wsChar).sublist.length_le (by simp)

lemma trim_reverse_fix {t : List Char} (h : trimChars t = t) :
    t.reverse.dropWhile wsChar = t.reverse := by
  have h1 := dropWhile_fix_of_trim h
  have h2 : (t.reverse.dropWhile wsChar).reverse = t := by
    conv_rhs => rw [← h]
    rw [trimChars, h1]
  calc t.reverse.dropWhile wsChar
      = (t.reverse.dropWhile wsChar).reverse.reverse := by rw [List.reverse_reverse]
    _ = t.reverse := by rw [h2]

lemma head_not_ws {c : Char} {t : List Char}
    (h : (c :: t).dropWhile wsChar = c :: t) : wsChar c = false := by
  by_contra hc
  rw [Bool.not_eq_false] at hc
  rw [List.dropWhile_cons, if_pos hc] at h
  have hle := (List.dropWhile_suffix (l := t) wsChar).sublist.length_le
  rw [h] at hle
  simp at hle

lemma last_not_ws_of_trim {t : List Char} (ht : trimChars t = t)
    {d : Char} (hw : wsChar d = true) : ¬ [d] <:+ t := by
  rintro ⟨ys, rfl⟩
  have h2 := trim_reverse_fix ht
  rw [show (ys ++ [d]).reverse = d :: ys.reverse by simp] at h2
  rw [head_not_ws h2] at hw
  exact Bool.false_ne_true hw

lemma trimChars_append (t ys : List Char) (d : Char) (ht : trimChars t = t)
    (htne : t ≠ []) (hd : wsChar d = false) :
    trimChars (t ++ (ys ++ [d])) = t ++ (ys ++ [d]) := by
  obtain ⟨c, t', rfl⟩ := List.exists_cons_of_ne_nil htne
  have hc : wsChar c = false := head_not_ws (dropWhile_fix_of_trim ht)
  have e1 : ((c :: t') ++ (ys ++ [d])).dropWhile wsChar
      = (c :: t') ++ (ys ++ [d]) := by
    rw [List.cons_append, List.dropWhile_cons, if_neg (by simp [hc])]
  have e3 : ((c :: t') ++ (ys ++ [d])).reverse
      = d :: (ys.reverse ++ (c :: t').reverse) := by simp
  have e2 : ((c :: t') ++ (ys ++ [d])).reverse.dropWhile wsChar
      = ((c :: t') ++ (ys ++ [d])).reverse := by
    rw [e3, List.dropWhile_cons, if_neg (by simp [hd])]
  rw [trimChars, e1, e2, List.reverse_reverse]

lemma pyFind_space_head {rest s : List Char} (ha : ∀ c ∈ s, c.isAlpha = true) :
    pyFind (' ' :: rest) s = none := by
  induction s with
  | nil => rfl
  | cons c s' ih =>
    have hc : c.isAlpha = true := ha c (List.mem_cons_self c s')
    have hne : (' ' == c) = false := by
      refine beq_eq_false_iff_ne.mpr fun h => ?_
      rw [← h] at hc; exact absurd hc (by decide)
    have he : (' ' :: rest).isPrefixOf (c :: s')
        = ((' ' == c) && rest.isPrefixOf s') := rfl
    rw [pyFind, if_neg (by rw [he, hne, Bool.false_and]; simp),
      ih (fun x hx => ha x (List.mem_cons_of_mem c hx))]
    rfl

lemma splitOnP_concat_sep (l : List Char) :
    (l ++ [' ']).splitOnP wsChar = l.splitOnP wsChar ++ [[]] := by
  induction l with
  | nil =>
    simp only [List.nil_append, List.splitOnP_cons, List.splitOnP_nil]
    rw [if_pos (by decide)]
    rfl
  | cons a l ih =>
    rw [List.cons_append, List.splitOnP_cons, List.splitOnP_cons]
    by_cases ha : wsChar a = true
    · rw [if_pos ha, if_pos ha, ih]; rfl
    · rw [if_neg ha, if_neg ha, ih]
      obtain ⟨g, gs, hg⟩ : ∃ g gs, l.splitOnP wsChar = g :: gs := by
        rcases hsp : l.splitOnP wsChar with _ | ⟨g, gs⟩
        · exact absurd hsp (List.splitOnP_ne_nil wsChar l)
        · exact ⟨g, gs, rfl⟩
      rw [hg]
      simp [List.modifyHead]

lemma pyWords_concat_sep (l : List Char) : pyWords (l ++ [' ']) = pyWords l := by
  rw [pyWords, pyWords, splitOnP_concat_sep, List.filter_append]
  simp

lemma applyFeatCuts_clean {t : List Char}
    (hfeat : ∀ p ∈ featPats, pyFind p t = none) : applyFeatCuts t = t := by
  rw [applyFeatCuts]
  simp only [featPats, List.map, List.foldl_cons, List.foldl_nil]
  rw [cutAt_of_none (hfeat _ (by decide)), cutAt_of_none (hfeat _ (by decide)),
    cutAt_of_none (hfeat _ (by decide)), cutAt_of_none (hfeat _ (by decide)),
    cutAt_of_none (hfeat _ (by decide)), cutAt_of_none (hfeat _ (by decide)),
    cutAt_of_none (hfeat _ (by decide))]

lemma applySufRemovals_clean {t : List Char}
    (hsuf : ∀ p ∈ sufPats, pyFind p t = none) : applySufRemovals t = t := by
  rw [applySufRemovals]
  simp only [sufPats, List.map, List.foldl_cons, List.foldl_nil]
  rw [removeAll_of_none (hsuf _ (by decide)), removeAll_of_none (hsuf _ (by decide)),
    removeAll_of_none (hsuf _ (by decide)), removeAll_of_none (hsuf _ (by decide)),
    removeAll_of_none (hsuf _ (by decide)), removeAll_of_none (hsuf _ (by decide)),
    removeAll_of_none (hsuf _ (by decide))]

lemma snkNormalize_clean {t : List Char} (hlow : pyLower t = t)
    (htrim : trimChars t = t) (hfeat : ∀ p ∈ featPats, pyFind p t = none)
    (hsuf : ∀ p ∈ sufPats, pyFind p t = none) :
    snkNormalize t
      = List.intercalate [' ']
          (pyWords (t.filter (fun c => c.isAlphanum || wsChar c))) := by
  rw [snkNormalize, hlow, htrim, applyFeatCuts_clean hfeat,
    applySufRemovals_clean hsuf]

lemma pyLower_append (a b : List Char) :
    pyLower (a ++ b) = pyLower a ++ pyLower b := List.map_append _ a b

lemma noSpan_of_dropsClear₀ {p u : List Char} (h : dropsClear p u [] = true)
    (t : List Char) : noSpan p t u :=
  noSpan_of_dropsClear [] h t (fun k hk => absurd hk (by simp))

/-- Appending " ft. <artist>" (purely alphabetic, lowercase artist) to a
clean base leaves the normalised form unchanged: the first featuring
pattern cuts exactly at the boundary. -/
lemma snk_ft_append (t lw : List Char) (hlow : pyLower t = t)
    (htrim : trimChars t = t) (htne : t ≠ [])
    (hfeat : ∀ p ∈ featPats, pyFind p t = none)
    (hsuf : ∀ p ∈ sufPats, pyFind p t = none)
    (hlwa : ∀ c ∈ lw, c.isAlpha = true) (hlwl : pyLower lw = lw)
    (hlwne : lw ≠ []) :
    snkNormalize (t ++ (' ':: 'f':: 't':: '.':: ' '::lw)) = snkNormalize t := by
  have hA : pyLower (t ++ (' ':: 'f':: 't':: '.':: ' '::lw))
      = t ++ (' ':: 'f':: 't':: '.':: ' '::lw) := by
    rw [pyLower_append, hlow]
    show t ++ (' ':: 'f':: 't':: '.':: ' ':: pyLower lw) = _
    rw [hlwl]
  obtain ⟨ys, d, hlwd⟩ : ∃ ys d, lw = ys ++ [d] := by
    rcases List.eq_nil_or_concat lw with h | ⟨ys, d, h⟩
    · exact absurd h hlwne
    · exact ⟨ys, d, by simpa using h⟩
  have hd : wsChar d = false := alpha_not_ws (hlwa d (by rw [hlwd]; simp))
  have hB : trimChars (t ++ (' ':: 'f':: 't':: '.':: ' '::lw))
      = t ++ (' ':: 'f':: 't':: '.':: ' '::lw) := by
    rw [hlwd]
    exact trimChars_append t (' ':: 'f':: 't':: '.':: ' '::ys) d htrim htne hd
  have hcut1 : cutAt (" ft.".data) (t ++ (' ':: 'f':: 't':: '.':: ' '::lw)) = t := by
    refine cutAt_boundary (pyFind_boundary (by decide) (hfeat _ (by decide))
      ?_ ⟨' '::lw, rfl⟩)
    refine noSpan_of_dropsClear [1] ?_ t ?_
    · rfl
    intro k hk
    have hk1 : k = 1 := by simpa using hk
    subst hk1
    exact last_not_ws_of_trim htrim (by decide)
  have hC : applyFeatCuts (t ++ (' ':: 'f':: 't':: '.':: ' '::lw)) = t := by
    rw [applyFeatCuts]
    simp only [featPats, List.map, List.foldl_cons, List.foldl_nil]
    rw [hcut1, cutAt_of_none (hfeat _ (by decide)),
      cutAt_of_none (hfeat _ (by decide)), cutAt_of_none (hfeat _ (by decide)),
      cutAt_of_none (hfeat _ (by decide)), cutAt_of_none (hfeat _ (by decide)),
      cutAt_of_none (hfeat _ (by decide))]
  rw [snkNormalize_clean hlow htrim hfeat hsuf, snkNormalize, hA, hB, hC,
    applySufRemovals_clean hsuf]

/-- Appending " feat. <artist>" (purely alphabetic, lowercase artist) to a
clean base leaves the normalised form unchanged: the " ft." pattern finds
nothing, then " feat." cuts exactly at the boundary. -/
lemma snk_feat_append (t lw : List Char) (hlow : pyLower t = t)
    (htrim : trimChars t = t) (htne : t ≠ [])
    (hfeat : ∀ p ∈ featPats, pyFind p t = none)
    (hsuf : ∀ p ∈ sufPats, pyFind p t = none)
    (hlwa : ∀ c ∈ lw, c.isAlpha = true) (hlwl : pyLower lw = lw)
    (hlwne : lw ≠ []) :
    snkNormalize (t ++ (' ':: 'f':: 'e':: 'a':: 't':: '.':: ' '::lw))
      = snkNormalize t := by
  have hA : pyLower (t ++ (' ':: 'f':: 'e':: 'a':: 't':: '.':: ' '::lw))
      = t ++ (' ':: 'f':: 'e':: 'a':: 't':: '.':: ' '::lw) := by
    rw [pyLower_append, hlow]
    show t ++ (' ':: 'f':: 'e':: 'a':: 't':: '.':: ' ':: pyLower lw) = _
    rw [hlwl]
  obtain ⟨ys, d, hlwd⟩ : ∃ ys d, lw = ys ++ [d] := by
    rcases List.eq_nil_or_concat lw with h | ⟨ys, d, h⟩
    · exact absurd h hlwne
    · exact ⟨ys, d, by simpa using h⟩
  have hd : wsChar d = false := alpha_not_ws (hlwa d (by rw [hlwd]; simp))
  have hB : trimChars (t ++ (' ':: 'f':: 'e':: 'a':: 't':: '.':: ' '::lw))
      = t ++ (' ':: 'f':: 'e':: 'a':: 't':: '.':: ' '::lw) := by
    rw [hlwd]
    exact trimChars_append t (' ':: 'f':: 'e':: 'a':: 't':: '.':: ' '::ys) d htrim htne hd
  have hnsT : noSpan (" ft.".data) t (' ':: 'f':: 'e':: 'a':: 't':: '.':: ' '::lw) := by
    refine noSpan_of_dropsClear [1] ?_ t ?_
    · rfl
    intro k hk
    have hk1 : k = 1 := by simpa using hk
    subst hk1
    exact last_not_ws_of_trim htrim (by decide)
  have hnsM : noSpan (" ft.".data) (' ':: 'f':: 'e':: 'a':: 't':: '.':: ' '::[]) lw := by
    intro k hk0 hklen ⟨hs, hp⟩
    rw [show (" ft.".data).length = 4 from by decide] at hklen
    interval_cases k
    · have hdot : '.' ∈ " ft.".data.drop 1 := by decide
      exact absurd (hlwa '.' (hp.subset hdot)) (by decide)
    · exact absurd hs (by decide)
    · exact absurd hs (by decide)
  have hfind1 : pyFind (" ft.".data)
      (t ++ (' ':: 'f':: 'e':: 'a':: 't':: '.':: ' '::lw)) = none := by
    have hmid : pyFind (" ft.".data)
        ((' ':: 'f':: 'e':: 'a':: 't':: '.':: ' '::[]) ++ lw) = none := by
      rw [pyFind_append (' ':: 'f':: 'e':: 'a':: 't':: '.':: ' '::[]) (by rfl) hnsM]
      rw [show pyFind (" ft.".data) lw = none from pyFind_space_head hlwa]
      rfl
    rw [show t ++ (' ':: 'f':: 'e':: 'a':: 't':: '.':: ' '::lw)
        = t ++ ((' ':: 'f':: 'e':: 'a':: 't':: '.':: ' '::[]) ++ lw) from rfl]
    rw [pyFind_append t (hfeat _ (by decide)) ?_, hmid]
    · rfl
    · intro k hk0 hklen hx
      exact hnsT k hk0 hklen ⟨hx.1, hx.2⟩
  have hcut2 : cutAt (" feat.".data)
      (t ++ (' ':: 'f':: 'e':: 'a':: 't':: '.':: ' '::lw)) = t := by
    refine cutAt_boundary (pyFind_boundary (by decide) (hfeat _ (by decide))
      ?_ ⟨' '::lw, rfl⟩)
    refine noSpan_of_dropsClear [1] ?_ t ?_
    · rfl
    intro k hk
    have hk1 : k = 1 := by simpa using hk
    subst hk1
    exact last_not_ws_of_trim htrim (by decide)
  have hC : applyFeatCuts (t ++ (' ':: 'f':: 'e':: 'a':: 't':: '.':: ' '::lw)) = t := by
    rw [applyFeatCuts]
    simp only [featPats, List.map, List.foldl_cons, List.foldl_nil]
    rw [cutAt_of_none hfind1, hcut2, cutAt_of_none (hfeat _ (by decide)),
      cutAt_of_none (hfeat _ (by decide)), cutAt_of_none (hfeat _ (by decide)),
      cutAt_of_none (hfeat _ (by decide)), cutAt_of_none (hfeat _ (by decide))]
  rw [snkNormalize_clean hlow htrim hfeat hsuf, snkNormalize, hA, hB, hC,
    applySufRemovals_clean hsuf]

/-- Appending " (Official Video)" to a clean base leaves the normalised
form unchanged: no featuring pattern fires, and the "(official video)"
replacement deletes the suffix, leaving one trailing space that the final
re-join discards. -/
lemma snk_official_video_append (t : List Char) (hlow : pyLower t = t)
    (htrim : trimChars t = t) (htne : t ≠ [])
    (hfeat : ∀ p ∈ featPats, pyFind p t = none)
    (hsuf : ∀ p ∈ sufPats, pyFind p t = none)
    (hft : (' ':: 'f':: 't'::[]).isSuffixOf t = false)
    (hfe : (' ':: 'f':: 'e':: 'a':: 't'::[]).isSuffixOf t = false) :
    snkNormalize (t ++ " (Official Video)".data) = snkNormalize t := by
  have hA : pyLower (t ++ " (Official Video)".data)
      = t ++ " (official video)".data := by
    rw [pyLower_append, hlow,
      show pyLower (" (Official Video)".data) = " (official video)".data from
        by decide]
  have hB : trimChars (t ++ " (official video)".data)
      = t ++ " (official video)".data := by
    have h := trimChars_append t (" (official video".data) ')' htrim htne
      (by decide)
    rw [show " (official video".data ++ [')'] = " (official video)".data from
      by decide] at h
    exact h
  have hks3 : ∀ k ∈ [3], ¬ (" ft ".data).take k <:+ t := by
    intro k hk
    have hk3 : k = 3 := by simpa using hk
    subst hk3
    intro hx
    have hb := List.isSuffixOf_iff_suffix.mpr hx
    rw [show (" ft ".data).take 3 = (' ':: 'f':: 't'::[]) from by decide, hft] at hb
    exact Bool.false_ne_true hb
  have hks5 : ∀ k ∈ [5], ¬ (" feat ".data).take k <:+ t := by
    intro k hk
    have hk5 : k = 5 := by simpa using hk
    subst hk5
    intro hx
    have hb := List.isSuffixOf_iff_suffix.mpr hx
    rw [show (" feat ".data).take 5 = (' ':: 'f':: 'e':: 'a':: 't'::[]) from
      by decide, hfe] at hb
    exact Bool.false_ne_true hb
  have hf1 : pyFind (" ft.".data) (t ++ " (official video)".data) = none := by
    rw [pyFind_append t (hfeat _ (by decide)) (noSpan_of_dropsClear₀ (by decide) t)]
    rfl
  have hf2 : pyFind (" feat.".data) (t ++ " (official video)".data) = none := by
    rw [pyFind_append t (hfeat _ (by decide)) (noSpan_of_dropsClear₀ (by decide) t)]
    rfl
  have hf3 : pyFind (" featuring".data) (t ++ " (official video)".data) = none := by
    rw [pyFind_append t (hfeat _ (by decide)) (noSpan_of_dropsClear₀ (by decide) t)]
    rfl
  have hf4 : pyFind (" ft ".data) (t ++ " (official video)".data) = none := by
    rw [pyFind_append t (hfeat _ (by decide))
      (noSpan_of_dropsClear [3] (by decide) t hks3)]
    rfl
  have hf5 : pyFind (" feat ".data) (t ++ " (official video)".data) = none := by
    rw [pyFind_append t (hfeat _ (by decide))
      (noSpan_of_dropsClear [5] (by decide) t hks5)]
    rfl
  have hf6 : pyFind ("(ft.".data) (t ++ " (official video)".data) = none := by
    rw [pyFind_append t (hfeat _ (by decide)) (noSpan_of_dropsClear₀ (by decide) t)]
    rfl
  have hf7 : pyFind ("(feat.".data) (t ++ " (official video)".data) = none := by
    rw [pyFind_append t (hfeat _ (by decide)) (noSpan_of_dropsClear₀ (by decide) t)]
    rfl
  have hC : applyFeatCuts (t ++ " (official video)".data)
      = t ++ " (official video)".data := by
    rw [applyFeatCuts]
    simp only [featPats, List.map, List.foldl_cons, List.foldl_nil]
    rw [cutAt_of_none hf1, cutAt_of_none hf2, cutAt_of_none hf3,
      cutAt_of_none hf4, cutAt_of_none hf5, cutAt_of_none hf6,
      cutAt_of_none hf7]
  have hq1 : pyFind ("(official)".data) (t ++ " (official video)".data) = none := by
    rw [pyFind_append t (hsuf _ (by decide)) (noSpan_of_dropsClear₀ (by decide) t)]
    rfl
  have hq2 : pyFind ("(lyrics)".data) (t ++ " (official video)".data) = none := by
    rw [pyFind_append t (hsuf _ (by decide)) (noSpan_of_dropsClear₀ (by decide) t)]
    rfl
  have hq3 : pyFind ("(audio)".data) (t ++ " (official video)".data) = none := by
    rw [pyFind_append t (hsuf _ (by decide)) (noSpan_of_dropsClear₀ (by decide) t)]
    rfl
  have hq4 : pyFind ("(video)".data) (t ++ " (official video)".data) = none := by
    rw [pyFind_append t (hsuf _ (by decide)) (noSpan_of_dropsClear₀ (by decide) t)]
    rfl
  have hE : removeAll ("(official video)".data) (t ++ " (official video)".data)
      = t ++ [' '] := by
    rw [removeAll_append t (hsuf _ (by decide)) (noSpan_of_dropsClear₀ (by decide) t)]
    rw [show removeAll ("(official video)".data) (" (official video)".data)
      = [' '] from by decide]
  have hq6 : pyFind ("(official audio)".data) (t ++ [' ']) = none := by
    rw [pyFind_append t (hsuf _ (by decide)) (noSpan_of_dropsClear₀ (by decide) t)]
    rfl
  have hq7 : pyFind ("(lyric video)".data) (t ++ [' ']) = none := by
    rw [pyFind_append t (hsuf _ (by decide)) (noSpan_of_dropsClear₀ (by decide) t)]
    rfl
  have hD : applySufRemovals (t ++ " (official video)".data) = t ++ [' '] := by
    rw [applySufRemovals]
    simp only [sufPats, List.map, List.foldl_cons, List.foldl_nil]
    rw [removeAll_of_none hq1, removeAll_of_none hq2, removeAll_of_none hq3,
      removeAll_of_none hq4, hE, removeAll_of_none hq6, removeAll_of_none hq7]
  rw [snkNormalize_clean hlow htrim hfeat hsuf, snkNormalize, hA, hB, hC, hD,
    List.filter_append,
    show ([' '] : List Char).filter (fun c => c.isAlphanum || wsChar c) = [' ']
      from by decide,
    pyWords_concat_sep]

/-- Appending " (Lyrics)" to a clean base leaves the normalised form
unchanged: the "(lyrics)" replacement deletes the suffix. -/
lemma snk_lyrics_append (t : List Char) (hlow : pyLower t = t)
    (htrim : trimChars t = t) (htne : t ≠ [])
    (hfeat : ∀ p ∈ featPats, pyFind p t = none)
    (hsuf : ∀ p ∈ sufPats, pyFind p t = none)
    (hft : (' ':: 'f':: 't'::[]).isSuffixOf t = false)
    (hfe : (' ':: 'f':: 'e':: 'a':: 't'::[]).isSuffixOf t = false) :
    snkNormalize (t ++ " (Lyrics)".data) = snkNormalize t := by
  have hA : pyLower (t ++ " (Lyrics)".data) = t ++ " (lyrics)".data := by
    rw [pyLower_append, hlow,
      show pyLower (" (Lyrics)".data) = " (lyrics)".data from by decide]
  have hB : trimChars (t ++ " (lyrics)".data) = t ++ " (lyrics)".data := by
    have h := trimChars_append t (" (lyrics".data) ')' htrim htne (by decide)
    rw [show " (lyrics".data ++ [')'] = " (lyrics)".data from by decide] at h
    exact h
  have hks3 : ∀ k ∈ [3], ¬ (" ft ".data).take k <:+ t := by
    intro k hk
    have hk3 : k = 3 := by simpa using hk
    subst hk3
    intro hx
    have hb := List.isSuffixOf_iff_suffix.mpr hx
    rw [show (" ft ".data).take 3 = (' ':: 'f':: 't'::[]) from by decide, hft] at hb
    exact Bool.false_ne_true hb
  have hks5 : ∀ k ∈ [5], ¬ (" feat ".data).take k <:+ t := by
    intro k hk
    have hk5 : k = 5 := by simpa using hk
    subst hk5
    intro hx
    have hb := List.isSuffixOf_iff_suffix.mpr hx
    rw [show (" feat ".data).take 5 = (' ':: 'f':: 'e':: 'a':: 't'::[]) from
      by decide, hfe] at hb
    exact Bool.false_ne_true hb
  have hf1 : pyFind (" ft.".data) (t ++ " (lyrics)".data) = none := by
    rw [pyFind_append t (hfeat _ (by decide)) (noSpan_of_dropsClear₀ (by decide) t)]
    rfl
  have hf2 : pyFind (" feat.".data) (t ++ " (lyrics)".data) = none := by
    rw [pyFind_append t (hfeat _ (by decide)) (noSpan_of_dropsClear₀ (by decide) t)]
    rfl
  have hf3 : pyFind (" featuring".data) (t ++ " (lyrics)".data) = none := by
    rw [pyFind_append t (hfeat _ (by decide)) (noSpan_of_dropsClear₀ (by decide) t)]
    rfl
  have hf4 : pyFind (" ft ".data) (t ++ " (lyrics)".data) = none := by
    rw [pyFind_append t (hfeat _ (by decide))
      (noSpan_of_dropsClear [3] (by decide) t hks3)]
    rfl
  have hf5 : pyFind (" feat ".data) (t ++ " (lyrics)".data) = none := by
    rw [pyFind_append t (hfeat _ (by decide))
      (noSpan_of_dropsClear [5] (by decide) t hks5)]
    rfl
  have hf6 : pyFind ("(ft.".data) (t ++ " (lyrics)".data) = none := by
    rw [pyFind_append t (hfeat _ (by decide)) (noSpan_of_dropsClear₀ (by decide) t)]
    rfl
  have hf7 : pyFind ("(feat.".data) (t ++ " (lyrics)".data) = none := by
    rw [pyFind_append t (hfeat _ (by decide)) (noSpan_of_dropsClear₀ (by decide) t)]
    rfl
  have hC : applyFeatCuts (t ++ " (lyrics)".data) = t ++ " (lyrics)".data := by
    rw [applyFeatCuts]
    simp only [featPats, List.map, List.foldl_cons, List.foldl_nil]
    rw [cutAt_of_none hf1, cutAt_of_none hf2, cutAt_of_none hf3,
      cutAt_of_none hf4, cutAt_of_none hf5, cutAt_of_none hf6,
      cutAt_of_none hf7]
  have hq1 : pyFind ("(official)".data) (t ++ " (lyrics)".data) = none := by
    rw [pyFind_append t (hsuf _ (by decide)) (noSpan_of_dropsClear₀ (by decide) t)]
    rfl
  have hE : removeAll ("(lyrics)".data) (t ++ " (lyrics)".data) = t ++ [' '] := by
    rw [removeAll_append t (hsuf _ (by decide)) (noSpan_of_dropsClear₀ (by decide) t)]
    rw [show removeAll ("(lyrics)".data) (" (lyrics)".data) = [' '] from by decide]
  have hq3 : pyFind ("(audio)".data) (t ++ [' ']) = none := by
    rw [pyFind_append t (hsuf _ (by decide)) (noSpan_of_dropsClear₀ (by decide) t)]
    rfl
  have hq4 : pyFind ("(video)".data) (t ++ [' ']) = none := by
    rw [pyFind_append t (hsuf _ (by decide)) (noSpan_of_dropsClear₀ (by decide) t)]
    rfl
  have hq5 : pyFind ("(official video)".data) (t ++ [' ']) = none := by
    rw [pyFind_append t (hsuf _ (by decide)) (noSpan_of_dropsClear₀ (by decide) t)]
    rfl
  have hq6 : pyFind ("(official audio)".data) (t ++ [' ']) = none := by
    rw [pyFind_append t (hsuf _ (by decide)) (noSpan_of_dropsClear₀ (by decide) t)]
    rfl
  have hq7 : pyFind ("(lyric video)".data) (t ++ [' ']) = none := by
    rw [pyFind_append t (hsuf _ (by decide)) (noSpan_of_dropsClear₀ (by decide) t)]
    rfl
  have hD : applySufRemovals (t ++ " (lyrics)".data) = t ++ [' '] := by
    rw [applySufRemovals]
    simp only [sufPats, List.map, List.foldl_cons, List.foldl_nil]
    rw [removeAll_of_none hq1, hE, removeAll_of_none hq3, removeAll_of_none hq4,
      removeAll_of_none hq5, removeAll_of_none hq6, removeAll_of_none hq7]
  rw [snkNormalize_clean hlow htrim hfeat hsuf, snkNormalize, hA, hB, hC, hD,
    List.filter_append,
    show ([' '] : List Char).filter (fun c => c.isAlphanum || wsChar c) = [' ']
      from by decide,
    pyWords_concat_sep]

/-- C9 (amended).  `normalize_song_key` is invariant under appending
featuring suffixes " ft. <artist>" / " feat. <artist>" (alphabetic
lowercase artist) and the cleanable parenthesized suffixes
" (Official Video)" / " (Lyrics)" to a clean title — one that is lowercase,
stripped, nonempty, free of featuring patterns and of the seven
parenthesized suffix literals, and not ending in " ft" or " feat" — and
likewise under the featuring suffix on the artist argument.  The claim's
stronger version fails: bracketed suffixes "[HD]" / "[Official Audio]"
are removable by `clean_title` but not by `normalize_song_key` (which
never calls `clean_title`), and degenerate titles break even the
featuring invariance, as the counterexample shows. -/
theorem normalize_song_key_suffix_invariance
    (a t lw : List Char)
    (hlow : pyLower t = t) (htrim : trimChars t = t) (htne : t ≠ [])
    (hfeat : ∀ p ∈ featPats, pyFind p t = none)
    (hsuf : ∀ p ∈ sufPats, pyFind p t = none)
    (hft : (' ':: 'f':: 't'::[]).isSuffixOf t = false)
    (hfe : (' ':: 'f':: 'e':: 'a':: 't'::[]).isSuffixOf t = false)
    (hlwa : ∀ c ∈ lw, c.isAlpha = true) (hlwl : pyLower lw = lw)
    (hlwne : lw ≠ []) :
    normalize_song_key (String.mk a)
        (String.mk (t ++ (' ':: 'f':: 't':: '.':: ' '::lw)))
      = normalize_song_key (String.mk a) (String.mk t)
    ∧ normalize_song_key (String.mk a)
        (String.mk (t ++ (' ':: 'f':: 'e':: 'a':: 't':: '.':: ' '::lw)))
      = normalize_song_key (String.mk a) (String.mk t)
    ∧ normalize_song_key (String.mk a) (String.mk (t ++ " (Official Video)".data))
      = normalize_song_key (String.mk a) (String.mk t)
    ∧ normalize_song_key (String.mk a) (String.mk (t ++ " (Lyrics)".data))
      = normalize_song_key (String.mk a) (String.mk t)
    ∧ normalize_song_key (String.mk (t ++ (' ':: 'f':: 't':: '.':: ' '::lw)))
        (String.mk a)
      = normalize_song_key (String.mk t) (String.mk a) := by
  have h1 := snk_ft_append t lw hlow htrim htne hfeat hsuf hlwa hlwl hlwne
  have h2 := snk_feat_append t lw hlow htrim htne hfeat hsuf hlwa hlwl hlwne
  have h3 := snk_official_video_append t hlow htrim htne hfeat hsuf hft hfe
  have h4 := snk_lyrics_append t hlow htrim htne hfeat hsuf hft hfe
  refine ⟨?_, ?_, ?_, ?_, ?_⟩ <;> rw [normalize_song_key, normalize_song_key]
  · show String.mk (snkNormalize a ++ '|'
        :: snkNormalize (t ++ (' ':: 'f':: 't':: '.':: ' '::lw)))
      = String.mk (snkNormalize a ++ '|' :: snkNormalize t)
    rw [h1]
  · show String.mk (snkNormalize a ++ '|'
        :: snkNormalize (t ++ (' ':: 'f':: 'e':: 'a':: 't':: '.':: ' '::lw)))
      = String.mk (snkNormalize a ++ '|' :: snkNormalize t)
    rw [h2]
  · show String.mk (snkNormalize a ++ '|'
        :: snkNormalize (t ++ " (Official Video)".data))
      = String.mk (snkNormalize a ++ '|' :: snkNormalize t)
    rw [h3]
  · show String.mk (snkNormalize a ++ '|' :: snkNormalize (t ++ " (Lyrics)".data))
      = String.mk (snkNormalize a ++ '|' :: snkNormalize t)
    rw [h4]
  · show String.mk (snkNormalize (t ++ (' ':: 'f':: 't':: '.':: ' '::lw)) ++ '|'
        :: snkNormalize a)
      = String.mk (snkNormalize t ++ '|' :: snkNormalize a)
    rw [h1]

/-- Witness for C9's amended theorem at a concrete clean title. -/
theorem normalize_song_key_suffix_invariance_witness :
    normalize_song_key "a" "dream on ft. drake" = normalize_song_key "a" "dream on"
    ∧ normalize_song_key "a" "dream on (Official Video)"
        = normalize_song_key "a" "dream on" := by
  have h := normalize_song_key_suffix_invariance "a".data "dream on".data
    "drake".data (by decide) (by decide) (by decide) (by decide) (by decide)
    (by decide) (by decide) (by decide) (by decide) (by decide)
  exact ⟨h.1, h.2.2.1⟩

end Orin
